import Mathlib

/-!
# LMP arbitrage scanner: parser and running aggregates

A shallow embedding of `fast_parser.h` and `scanner.cpp`.

Conventions of the embedding.

* A C buffer `const char* data` is a function `Nat → Char` (the byte at each
  index); `size_t` values are `Nat`; `int` values are `Int` without wrap-around.
* `double` values are exact rationals (`ℚ`): every theorem about means and
  variances is a statement of exact arithmetic, not of IEEE rounding.
* Every `while` loop whose condition starts with `pos < len` is a structural
  recursion on a fuel argument which the caller sets to `len - pos`, the
  number of iterations the loop can make at most.
* The cursor carries a log `reads` of the buffer indices that the parser's own
  code dereferences (`data[pos]`, `line[p.pos]`, `line[p.pos + 1]`).
* The library routine `std::sqrt` is a parameter `sqrt : ℚ → ℚ` of the
  functions that call it; `std::sort` with a comparator `key(a) > key(b)` is an
  insertion sort.
* The loop over `node_data_` takes the entries of the map as a list, in the
  order of the visit; the maps local to `calculate_zone_summaries` are lists
  of entries in order of insertion.
-/

namespace LMP

/-! ## fast_parser.h -/

/-- Cursor of `FastCSVParser`: the field `pos`, together with the log of the
indices of `data` dereferenced so far (most recent first). -/
structure FastCSVParser where
  pos : Nat
  reads : List Nat
  deriving DecidableEq, Repr

/-- Record a dereference of `data[i]`. -/
def FastCSVParser.deref (p : FastCSVParser) (i : Nat) : FastCSVParser :=
  { p with reads := i :: p.reads }

/-- Loop `while (pos < len && data[pos] != ',') pos++;`. -/
def skipLoop (data : Nat → Char) (len : Nat) : Nat → FastCSVParser → FastCSVParser
  | 0, p => p
  | fuel + 1, p =>
    if p.pos < len then
      if data p.pos ≠ ',' then
        skipLoop data len fuel { (p.deref p.pos) with pos := p.pos + 1 }
      else p.deref p.pos
    else p

/-- Method `FastCSVParser::skip`. -/
def skip (data : Nat → Char) (len : Nat) (p : FastCSVParser) : FastCSVParser :=
  let p1 := skipLoop data len (len - p.pos) p
  if p1.pos < len then { p1 with pos := p1.pos + 1 } else p1

/-- Loop `while (pos < len && data[pos] == ',') pos++;`, the first statement of
`parse_int`, `parse_double` and `parse_string`. -/
def commaLoop (data : Nat → Char) (len : Nat) : Nat → FastCSVParser → FastCSVParser
  | 0, p => p
  | fuel + 1, p =>
    if p.pos < len then
      if data p.pos = ',' then
        commaLoop data len fuel { (p.deref p.pos) with pos := p.pos + 1 }
      else p.deref p.pos
    else p

/-- Test `c >= '0' && c <= '9'`. -/
def isDigit (c : Char) : Bool := decide ('0' ≤ c) && decide (c ≤ '9')

/-- Value of `c - '0'` as an `int` (for an ASCII byte `c`). -/
def charMinusZero (c : Char) : Int := (c.toNat : Int) - 48

/-- Loop `while (pos < len && data[pos] >= '0' && data[pos] <= '9')
val = val * 10 + (data[pos++] - '0');` of `parse_int`. -/
def digitLoop (data : Nat → Char) (len : Nat) :
    Nat → FastCSVParser → Int → FastCSVParser × Int
  | 0, p, val => (p, val)
  | fuel + 1, p, val =>
    if p.pos < len then
      if isDigit (data p.pos) then
        digitLoop data len fuel { (p.deref p.pos) with pos := p.pos + 1 }
          (val * 10 + charMinusZero (data p.pos))
      else (p.deref p.pos, val)
    else (p, val)

/-- Method `FastCSVParser::parse_int`.  The test `data[pos] == '-'` is made
without comparing `pos` to `len`. -/
def parse_int (data : Nat → Char) (len : Nat) (p : FastCSVParser) : FastCSVParser × Int :=
  let p1 := commaLoop data len (len - p.pos) p
  let neg : Bool := decide (data p1.pos = '-')
  let p2 := p1.deref p1.pos
  let p3 := if neg then { p2 with pos := p2.pos + 1 } else p2
  let r := digitLoop data len (len - p3.pos) p3 0
  (r.1, if neg then -r.2 else r.2)

/-! ### The library routine `strtod`

`strtod` is the C library's; it is modelled here on decimal text: optional
white space, an optional sign, digits with an optional fraction, an optional
exponent.  The value is the exact rational the text denotes.  Hexadecimal
text and the words `inf` and `nan` have no rational value and are outside the
model.  The routine scans a NUL-terminated string; `fuel` bounds each scan and
is set by the caller to the distance to the terminator plus one. -/

/-- Test `isspace(c)` of the C locale. -/
def isSpace (c : Char) : Bool :=
  c = ' ' || c = '\t' || c = '\n' || c = '\x0b' || c = '\x0c' || c = '\r'

/-- Skip white space from index `i`. -/
def skipSpaces (data : Nat → Char) : Nat → Nat → Nat
  | 0, i => i
  | fuel + 1, i => if isSpace (data i) then skipSpaces data fuel (i + 1) else i

/-- Scan a run of decimal digits from index `i`; returns the number read so
far, the count of digits and the index after the run. -/
def scanDigits (data : Nat → Char) : Nat → Nat → Nat → Nat → Nat × Nat × Nat
  | 0, i, acc, cnt => (acc, cnt, i)
  | fuel + 1, i, acc, cnt =>
    if isDigit (data i) then
      scanDigits data fuel (i + 1) (acc * 10 + ((data i).toNat - 48)) (cnt + 1)
    else (acc, cnt, i)

/-- Exponent part `e[+-]digits` at index `i`, if there is one: the exponent and
the index after it. -/
def scanExponent (data : Nat → Char) (fuel : Nat) (i : Nat) : Int × Nat :=
  if data i = 'e' ∨ data i = 'E' then
    let j := if data (i + 1) = '-' ∨ data (i + 1) = '+' then i + 2 else i + 1
    let r := scanDigits data fuel j 0 0
    if r.2.1 = 0 then (0, i)
    else (if data (i + 1) = '-' then -(r.1 : Int) else (r.1 : Int), r.2.2)
  else (0, i)

/-- Model of `strtod(data + start, &end)`: the value and the index of `end`.
When no digit is found the value is `0` and `end` is `start`. -/
def strtod (data : Nat → Char) (fuel : Nat) (start : Nat) : ℚ × Nat :=
  let i0 := skipSpaces data fuel start
  let i1 := if data i0 = '-' ∨ data i0 = '+' then i0 + 1 else i0
  let ip := scanDigits data fuel i1 0 0
  let fp : Nat × Nat × Nat :=
    if data ip.2.2 = '.' then scanDigits data fuel (ip.2.2 + 1) 0 0 else (0, 0, ip.2.2)
  if ip.2.1 + fp.2.1 = 0 then (0, start)
  else
    let ex := scanExponent data fuel fp.2.2
    let mant : ℚ := ((ip.1 * 10 ^ fp.2.1 + fp.1 : Nat) : ℚ) / ((10 ^ fp.2.1 : Nat) : ℚ)
    let v : ℚ := mant * (10 : ℚ) ^ ex.1
    (if data i0 = '-' then -v else v, ex.2)

/-- Method `FastCSVParser::parse_double`. -/
def parse_double (data : Nat → Char) (len : Nat) (p : FastCSVParser) : FastCSVParser × ℚ :=
  let p1 := commaLoop data len (len - p.pos) p
  let r := strtod data (len + 1 - p1.pos) p1.pos
  ({ p1 with pos := r.2 }, r.1)

/-- Loop `while (pos < len && data[pos] != ',' && i < max_len - 1)
out[i++] = data[pos++];` of `parse_string`; `out` is the text written so far,
so `i = out.length`. -/
def copyLoop (data : Nat → Char) (len max_len : Nat) :
    Nat → FastCSVParser → List Char → FastCSVParser × List Char
  | 0, p, out => (p, out)
  | fuel + 1, p, out =>
    if p.pos < len then
      if data p.pos ≠ ',' then
        if out.length < max_len - 1 then
          copyLoop data len max_len fuel { (p.deref p.pos) with pos := p.pos + 1 }
            (out ++ [data p.pos])
        else (p.deref p.pos, out)
      else (p.deref p.pos, out)
    else (p, out)

/-- Method `FastCSVParser::parse_string`: the characters written to `out`
before the terminating `'\0'`, which is written at index `out.length`. -/
def parse_string (data : Nat → Char) (len : Nat) (p : FastCSVParser) (max_len : Nat) :
    FastCSVParser × List Char :=
  let p1 := commaLoop data len (len - p.pos) p
  copyLoop data len max_len (len - p1.pos) p1 []

/-- Loop `while (p.pos < len && line[p.pos] != ' ' && line[p.pos] != ',') p.pos++;`
of the hour extraction. -/
def spaceLoop (data : Nat → Char) (len : Nat) : Nat → FastCSVParser → FastCSVParser
  | 0, p => p
  | fuel + 1, p =>
    if p.pos < len then
      if data p.pos ≠ ' ' ∧ data p.pos ≠ ',' then
        spaceLoop data len fuel { (p.deref p.pos) with pos := p.pos + 1 }
      else p.deref p.pos
    else p

/-- Apply `skip` `k` times: `for (int i = 0; i < k; i++) p.skip();`. -/
def skipN (data : Nat → Char) (len : Nat) : Nat → FastCSVParser → FastCSVParser
  | 0, p => p
  | k + 1, p => skipN data len k (skip data len p)

/-- Values that `CSVRowParser::parse` stores through its reference
parameters, its return value `ok`, and the log of dereferenced indices. -/
structure ParseResult where
  ok : Bool
  pnode_id : Int
  zone : List Char
  spread : ℚ
  cong_da : ℚ
  cong_rt : ℚ
  energy_da : ℚ
  energy_rt : ℚ
  hour : Int
  reads : List Nat
  deriving DecidableEq, Repr

/-- Hour extraction of `CSVRowParser::parse`: the cursor after it and `hour`.
The two characters after the space are read without comparing their indices
to `len`. -/
def parseHour (data : Nat → Char) (len : Nat) (p : FastCSVParser) : FastCSVParser × Int :=
  let p1 := spaceLoop data len (len - p.pos) p
  if p1.pos < len ∧ data p1.pos = ' ' then
    let p2 : FastCSVParser := { (p1.deref p1.pos) with pos := p1.pos + 1 }
    let p3 := (p2.deref p2.pos).deref (p2.pos + 1)
    (p3, charMinusZero (data p2.pos) * 10 + charMinusZero (data (p2.pos + 1)))
  else (p1, 0)

/-- Function `CSVRowParser::parse`. -/
def parse (data : Nat → Char) (len : Nat) : ParseResult :=
  let p : FastCSVParser := { pos := 0, reads := [] }
  let p := skipN data len 7 p
  let cd := parse_double data len p
  let p := skip data len cd.1
  let ed := parse_double data len p
  let p := skipN data len 7 ed.1
  let cr := parse_double data len p
  let p := skip data len cr.1
  let er := parse_double data len p
  let p := skip data len er.1
  let hr := parseHour data len p
  let p := skip data len hr.1
  let pn := parse_int data len p
  let zn := parse_string data len pn.1 32
  let sp := parse_double data len zn.1
  { ok := true, pnode_id := pn.2, zone := zn.2, spread := sp.2,
    cong_da := cd.2, cong_rt := cr.2, energy_da := ed.2, energy_rt := er.2,
    hour := hr.2, reads := sp.1.reads }

/-! ## scanner.h / scanner.cpp -/

/-- Struct `CSVRow`. -/
structure CSVRow where
  pnode_id : Int
  zone : List Char
  spread : ℚ
  congestion_da : ℚ
  congestion_rt : ℚ
  energy_da : ℚ
  energy_rt : ℚ
  hour : Int
  valid : Bool
  deriving DecidableEq, Repr

/-- Buffer returned by `line.c_str()`: the characters of the line followed by
the terminator `'\0'` at index `line.size()`.  Indices beyond the terminator
are outside the buffer; the model reads `'\0'` there. -/
def c_str (line : List Char) : Nat → Char := fun i => line.getD i '\x00'

/-- Function `LMPScanner::parse_line`.  The assignment `row.zone = zone_buf`
copies the buffer up to its first `'\0'`. -/
def parse_line (line : List Char) : CSVRow :=
  let r := parse (c_str line) line.length
  { pnode_id := r.pnode_id,
    zone := if r.ok then r.zone.takeWhile (fun c => c ≠ '\x00') else [],
    spread := r.spread, congestion_da := r.cong_da, congestion_rt := r.cong_rt,
    energy_da := r.energy_da, energy_rt := r.energy_rt, hour := r.hour,
    valid := r.ok }

/-- Struct `NodeAccumulator` with its default member initialisers.  The two
arrays of 24 entries are functions on `Fin 24`. -/
structure NodeAccumulator where
  n : Int := 0
  mean_spread : ℚ := 0
  M2_spread : ℚ := 0
  sum_abs_spread : ℚ := 0
  positive_count : Int := 0
  max_spread : ℚ := -1000000000
  min_spread : ℚ := 1000000000
  mean_cong_spread : ℚ := 0
  M2_cong_spread : ℚ := 0
  mean_energy_spread : ℚ := 0
  M2_energy_spread : ℚ := 0
  hourly_sum : Fin 24 → ℚ := fun _ => 0
  hourly_count : Fin 24 → Int := fun _ => 0
  zone : List Char := []
  pnode_id : Int := 0

/-- Statement `arr[hour] += x` under the guard `if (hour >= 0 && hour < 24)`;
outside the guard the array is left as it is. -/
def bumpHour {α : Type} [Add α] (arr : Fin 24 → α) (hour : Int) (x : α) : Fin 24 → α :=
  if h : 0 ≤ hour ∧ hour < 24 then
    Function.update arr ⟨hour.toNat, by omega⟩ (arr ⟨hour.toNat, by omega⟩ + x)
  else arr

/-- Method `NodeAccumulator::update`. -/
def NodeAccumulator.update (a : NodeAccumulator) (spread cong_spread energy_spread : ℚ)
    (hour : Int) (zone_name : List Char) (node_id : Int) : NodeAccumulator :=
  let n := a.n + 1
  let delta := spread - a.mean_spread
  let mean_spread := a.mean_spread + delta / (n : ℚ)
  let delta2 := spread - mean_spread
  let cong_delta := cong_spread - a.mean_cong_spread
  let mean_cong_spread := a.mean_cong_spread + cong_delta / (n : ℚ)
  let cong_delta2 := cong_spread - mean_cong_spread
  let energy_delta := energy_spread - a.mean_energy_spread
  let mean_energy_spread := a.mean_energy_spread + energy_delta / (n : ℚ)
  let energy_delta2 := energy_spread - mean_energy_spread
  { n := n,
    zone := if n = 1 then zone_name else a.zone,
    pnode_id := if n = 1 then node_id else a.pnode_id,
    mean_spread := mean_spread,
    M2_spread := a.M2_spread + delta * delta2,
    mean_cong_spread := mean_cong_spread,
    M2_cong_spread := a.M2_cong_spread + cong_delta * cong_delta2,
    mean_energy_spread := mean_energy_spread,
    M2_energy_spread := a.M2_energy_spread + energy_delta * energy_delta2,
    sum_abs_spread := a.sum_abs_spread + |spread|,
    positive_count := if spread > 0 then a.positive_count + 1 else a.positive_count,
    max_spread := max a.max_spread spread,
    min_spread := min a.min_spread spread,
    hourly_sum := bumpHour a.hourly_sum hour spread,
    hourly_count := bumpHour a.hourly_count hour 1 }

/-- Body of the loop `for (auto& [node_id, local_acc] : local_data)` in
`LMPScanner::analyze`: the new value of `global_acc` from its old value `g`
and the worker's aggregate `l`. -/
def mergeStep (g l : NodeAccumulator) : NodeAccumulator :=
  if g.n = 0 then l
  else
    let n_total := g.n + l.n
    let delta := l.mean_spread - g.mean_spread
    let cong_delta := l.mean_cong_spread - g.mean_cong_spread
    let energy_delta := l.mean_energy_spread - g.mean_energy_spread
    { g with
      mean_spread := ((g.n : ℚ) * g.mean_spread + (l.n : ℚ) * l.mean_spread) / (n_total : ℚ),
      M2_spread := g.M2_spread +
        (l.M2_spread + delta * delta * (g.n : ℚ) * (l.n : ℚ) / (n_total : ℚ)),
      mean_cong_spread :=
        ((g.n : ℚ) * g.mean_cong_spread + (l.n : ℚ) * l.mean_cong_spread) / (n_total : ℚ),
      M2_cong_spread := g.M2_cong_spread +
        (l.M2_cong_spread + cong_delta * cong_delta * (g.n : ℚ) * (l.n : ℚ) / (n_total : ℚ)),
      mean_energy_spread :=
        ((g.n : ℚ) * g.mean_energy_spread + (l.n : ℚ) * l.mean_energy_spread) / (n_total : ℚ),
      M2_energy_spread := g.M2_energy_spread +
        (l.M2_energy_spread +
          energy_delta * energy_delta * (g.n : ℚ) * (l.n : ℚ) / (n_total : ℚ)),
      n := n_total,
      sum_abs_spread := g.sum_abs_spread + l.sum_abs_spread,
      positive_count := g.positive_count + l.positive_count,
      max_spread := max g.max_spread l.max_spread,
      min_spread := min g.min_spread l.min_spread,
      hourly_sum := fun h => g.hourly_sum h + l.hourly_sum h,
      hourly_count := fun h => g.hourly_count h + l.hourly_count h }

/-- Divisors of the divisions that the merge step evaluates, in program order:
none in the branch `global_acc.n == 0`, six times `n_total` in the other. -/
def mergeStepDivisors (g l : NodeAccumulator) : List Int :=
  if g.n = 0 then []
  else List.replicate 6 (g.n + l.n)

/-- Arguments of one call of `update`. -/
structure Obs where
  spread : ℚ
  cong_spread : ℚ
  energy_spread : ℚ
  hour : Int
  zone_name : List Char
  node_id : Int
  deriving DecidableEq

/-- One call `acc.update(o.spread, ...)`. -/
def NodeAccumulator.updateObs (a : NodeAccumulator) (o : Obs) : NodeAccumulator :=
  a.update o.spread o.cong_spread o.energy_spread o.hour o.zone_name o.node_id

/-- Fold a list of observations, first to last, into a fresh accumulator. -/
def foldUpdates (l : List Obs) : NodeAccumulator :=
  l.foldl NodeAccumulator.updateObs {}

/-- The call of `update` that the worker loop makes for a valid row. -/
def rowObs (row : CSVRow) : Obs :=
  { spread := row.spread,
    cong_spread := row.congestion_da - row.congestion_rt,
    energy_spread := row.energy_da - row.energy_rt,
    hour := row.hour, zone_name := row.zone, node_id := row.pnode_id }

/-- A `std::unordered_map<int, NodeAccumulator>`: the entry stored under each
key, if any. -/
abbrev NodeMap := Int → Option NodeAccumulator

/-- The empty map. -/
def NodeMap.empty : NodeMap := fun _ => none

/-- Value of `m[k]`: the stored entry, or a default-constructed one, which
`operator[]` inserts when the key is absent. -/
def NodeMap.at (m : NodeMap) (k : Int) : NodeAccumulator := (m k).getD {}

/-- Body of the worker loop `for (const auto& line : line_chunks[t])`. -/
def workerStep (m : NodeMap) (line : List Char) : NodeMap :=
  let row := parse_line line
  if !row.valid then m
  else Function.update m row.pnode_id (some ((m.at row.pnode_id).updateObs (rowObs row)))

/-- Local map of a worker after its loop over its chunk of lines. -/
def workerFold (lines : List (List Char)) : NodeMap :=
  lines.foldl workerStep NodeMap.empty

/-- Merge of one worker map into the global map.  The loop visits every entry
of the local map once, and the entry under key `k` changes only the global
entry under `k`, so the result does not depend on the iteration order. -/
def mergeInto (g l : NodeMap) : NodeMap := fun k =>
  match l k with
  | none => g k
  | some la => some (mergeStep (g.at k) la)

/-- Lines that the reading loop pushes to `line_chunks[t]`: those whose index
`chunk_idx` satisfies `chunk_idx % NUM_THREADS == t`, in input order. -/
def lineChunk (lines : List (List Char)) (numThreads t : Nat) : List (List Char) :=
  (lines.enum.filter (fun p => p.1 % numThreads = t)).map Prod.snd

/-- Global map `node_data_` after the workers listed in `order` have merged
their local maps, one at a time under `merge_mutex`, in that order. -/
def analyzeMerge (lines : List (List Char)) (numThreads : Nat) (order : List Nat) : NodeMap :=
  order.foldl (fun g t => mergeInto g (workerFold (lineChunk lines numThreads t))) NodeMap.empty

/-- A division `x / y` of `calculate_results`: its value, and its divisor as
an entry for the log of divisors. -/
def divLogged (x y : ℚ) : ℚ × List ℚ := (x / y, [y])

/-- The three divisions `acc.M2_spread / acc.n`, `acc.M2_cong_spread / acc.n`
and `acc.M2_energy_spread / acc.n` of `calculate_results`, each with its
divisor. -/
def varianceLogged (acc : NodeAccumulator) : (ℚ × List ℚ) × (ℚ × List ℚ) × (ℚ × List ℚ) :=
  (divLogged acc.M2_spread (acc.n : ℚ), divLogged acc.M2_cong_spread (acc.n : ℚ),
    divLogged acc.M2_energy_spread (acc.n : ℚ))

/-- Arguments of the three calls of `std::sqrt` in `calculate_results`: the
values of the three divisions `M2 / acc.n`. -/
def sqrtArgs (acc : NodeAccumulator) : ℚ × ℚ × ℚ :=
  ((varianceLogged acc).1.1, (varianceLogged acc).2.1.1, (varianceLogged acc).2.2.1)

/-- Struct `NodeResult`. -/
structure NodeResult where
  pnode_id : Int
  zone : List Char
  sample_size : Int
  mean_spread : ℚ
  std_spread : ℚ
  sharpe_ratio : ℚ
  hit_rate : ℚ
  mean_abs_spread : ℚ
  congestion_mean : ℚ
  congestion_std : ℚ
  congestion_sharpe : ℚ
  energy_mean : ℚ
  energy_std : ℚ
  energy_sharpe : ℚ
  best_hour : Int
  best_hour_avg : ℚ
  net_profit_10mw : ℚ
  deriving DecidableEq

/-- Struct `ZoneSummary`. -/
structure ZoneSummary where
  zone : List Char
  avg_sharpe : ℚ
  num_profitable_nodes : Int
  total_samples : Int
  deriving DecidableEq

/-- Body of the loop `for (int h = 0; h < 24; h++)` of `calculate_results`:
`st.1` is the pair `(best_hour, best_hour_avg)` after hour `h` and `st.2` the
divisors of the divisions evaluated so far. -/
def bestHourStep (acc : NodeAccumulator) (st : (Int × ℚ) × List ℚ) (h : Fin 24) :
    (Int × ℚ) × List ℚ :=
  if acc.hourly_count h > 0 then
    let avg := divLogged (acc.hourly_sum h) (acc.hourly_count h : ℚ)
    if |avg.1| > |st.1.2| then (((h.val : Int), avg.1), st.2 ++ avg.2)
    else (st.1, st.2 ++ avg.2)
  else st

/-- The best-hour loop of `calculate_results`, from `best_hour = 0` and
`best_hour_avg = 0.0`, with the log of its divisors. -/
def bestHourLogged (acc : NodeAccumulator) : (Int × ℚ) × List ℚ :=
  (List.finRange 24).foldl (bestHourStep acc) ((0, 0), [])

/-- The pair `(best_hour, best_hour_avg)` after the best-hour loop. -/
def bestHour (acc : NodeAccumulator) : Int × ℚ := (bestHourLogged acc).1

/-- The local `result` that the loop body of `calculate_results` builds for an
aggregate with `acc.n ≥ MIN_SAMPLE_SIZE`, together with the divisors of all
the divisions evaluated on the way, in program order.  Every division goes
through `divLogged`, so a division is in the log exactly when the branch that
holds it is taken.  The library routine `std::sqrt` is the
parameter `sqrt`. -/
def deriveLogged (sqrt : ℚ → ℚ) (transaction_cost : ℚ) (acc : NodeAccumulator) :
    NodeResult × List ℚ :=
  let variance := varianceLogged acc
  let std_spread := sqrt (sqrtArgs acc).1
  let hit_rate := divLogged (acc.positive_count : ℚ) (acc.n : ℚ)
  let mean_abs_spread := divLogged acc.sum_abs_spread (acc.n : ℚ)
  let sharpe_ratio : ℚ × List ℚ :=
    if std_spread > 0 then divLogged acc.mean_spread std_spread else (0, [])
  let tradeable_spread := max 0 (|acc.mean_spread| - transaction_cost)
  let congestion_std := sqrt (sqrtArgs acc).2.1
  let congestion_sharpe : ℚ × List ℚ :=
    if congestion_std > 0 then divLogged acc.mean_cong_spread congestion_std else (0, [])
  let energy_std := sqrt (sqrtArgs acc).2.2
  let energy_sharpe : ℚ × List ℚ :=
    if energy_std > 0 then divLogged acc.mean_energy_spread energy_std else (0, [])
  let best := bestHourLogged acc
  ({ pnode_id := acc.pnode_id,
     zone := if acc.zone.isEmpty then ['N', '/', 'A'] else acc.zone,
     sample_size := acc.n,
     mean_spread := acc.mean_spread,
     std_spread := std_spread,
     hit_rate := hit_rate.1,
     mean_abs_spread := mean_abs_spread.1,
     sharpe_ratio := sharpe_ratio.1,
     net_profit_10mw := tradeable_spread * 10 * (acc.n : ℚ),
     congestion_mean := acc.mean_cong_spread,
     congestion_std := congestion_std,
     congestion_sharpe := congestion_sharpe.1,
     energy_mean := acc.mean_energy_spread,
     energy_std := energy_std,
     energy_sharpe := energy_sharpe.1,
     best_hour := best.1.1,
     best_hour_avg := best.1.2 },
   variance.1.2 ++ hit_rate.2 ++ mean_abs_spread.2 ++ sharpe_ratio.2 ++ variance.2.1.2 ++
     congestion_sharpe.2 ++ variance.2.2.2 ++ energy_sharpe.2 ++ best.2)

/-- The local `result` of the loop body of `calculate_results`. -/
def deriveResult (sqrt : ℚ → ℚ) (transaction_cost : ℚ) (acc : NodeAccumulator) : NodeResult :=
  (deriveLogged sqrt transaction_cost acc).1

/-- Divisors of the divisions that the loop body of `calculate_results`
evaluates for `acc`, in program order. -/
def deriveDivisors (sqrt : ℚ → ℚ) (transaction_cost : ℚ) (acc : NodeAccumulator) : List ℚ :=
  (deriveLogged sqrt transaction_cost acc).2

/-- Body of the loop `for (const auto& [node_id, acc] : node_data_)` of
`calculate_results`: the vector `results_` after the entry `acc`. -/
def processEntry (sqrt : ℚ → ℚ) (transaction_cost : ℚ) (results : List NodeResult)
    (acc : NodeAccumulator) : List NodeResult :=
  if acc.n < 500 then results
  else
    let result := deriveResult sqrt transaction_cost acc
    if |result.mean_spread| > transaction_cost then results ++ [result] else results

/-- Call `std::sort(first, last, comp)` with the comparator
`comp(a, b) = key(a) > key(b)`.  The library leaves the order of elements with
equal keys open; the model is an insertion sort, which yields one of the
orders the library may yield. -/
def sortDescBy {α : Type} (key : α → ℚ) (l : List α) : List α :=
  l.insertionSort (fun a b => key a ≥ key b)

/-- Function `LMPScanner::calculate_results` on an empty `results_`: `entries`
lists the entries of `node_data_` in the order in which the loop visits them. -/
def calculate_results (sqrt : ℚ → ℚ) (transaction_cost : ℚ)
    (entries : List (Int × NodeAccumulator)) : List NodeResult :=
  sortDescBy NodeResult.sharpe_ratio
    (entries.foldl (fun rs e => processEntry sqrt transaction_cost rs e.2) [])

/-- Statement `m[k] = f(m[k])` on an `std::unordered_map` kept as a list of
entries in order of insertion: `operator[]` inserts the value-initialised
entry `d` when the key is absent. -/
def mapModify {κ ν : Type} [DecidableEq κ] (k : κ) (d : ν) (f : ν → ν) :
    List (κ × ν) → List (κ × ν)
  | [] => [(k, f d)]
  | (k1, v) :: rest =>
    if k1 = k then (k1, f v) :: rest else (k1, v) :: mapModify k d f rest

/-- Value of `m[k]`, the value-initialised `d` when the key is absent. -/
def mapGet {κ ν : Type} [DecidableEq κ] (k : κ) (d : ν) : List (κ × ν) → ν
  | [] => d
  | (k1, v) :: rest => if k1 = k then v else mapGet k d rest

/-- The three maps `zone_sharpes`, `zone_counts`, `zone_samples` of
`calculate_zone_summaries`. -/
structure ZoneMaps where
  zone_sharpes : List (List Char × List ℚ)
  zone_counts : List (List Char × Int)
  zone_samples : List (List Char × Int)

/-- Body of the loop `for (const auto& result : results_)`. -/
def zoneStep (m : ZoneMaps) (result : NodeResult) : ZoneMaps :=
  { zone_sharpes :=
      mapModify result.zone [] (fun v => v ++ [result.sharpe_ratio]) m.zone_sharpes,
    zone_counts := mapModify result.zone 0 (fun c => c + 1) m.zone_counts,
    zone_samples := mapModify result.zone 0 (fun c => c + result.sample_size) m.zone_samples }

/-- Body of the loop `for (const auto& [zone, sharpes] : zone_sharpes)`: the
summary pushed for one entry. -/
def zoneSummaryOf (m : ZoneMaps) (e : List Char × List ℚ) : ZoneSummary :=
  { zone := e.1,
    num_profitable_nodes := mapGet e.1 0 m.zone_counts,
    total_samples := mapGet e.1 0 m.zone_samples,
    avg_sharpe := e.2.foldl (fun sum s => sum + s) 0 / (e.2.length : ℚ) }

/-- Function `LMPScanner::calculate_zone_summaries` on an empty
`zone_summaries_`.  The loop over `zone_sharpes` visits the entries in order of
insertion, one of the orders an `std::unordered_map` may have. -/
def calculate_zone_summaries (results : List NodeResult) : List ZoneSummary :=
  let m := results.foldl zoneStep { zone_sharpes := [], zone_counts := [], zone_samples := [] }
  sortDescBy ZoneSummary.avg_sharpe (m.zone_sharpes.map (zoneSummaryOf m))

/-- Cursor of `CSVRowParser::parse` at its call of `parse_string`: the cursor
that `parse_int` leaves. -/
def cursorBeforeZone (data : Nat → Char) (len : Nat) : FastCSVParser :=
  let p : FastCSVParser := { pos := 0, reads := [] }
  let p := skipN data len 7 p
  let cd := parse_double data len p
  let p := skip data len cd.1
  let ed := parse_double data len p
  let p := skipN data len 7 ed.1
  let cr := parse_double data len p
  let p := skip data len cr.1
  let er := parse_double data len p
  let p := skip data len er.1
  let hr := parseHour data len p
  let p := skip data len hr.1
  (parse_int data len p).1

/-- Index of the first character that `parse_string` copies in
`CSVRowParser::parse`: the cursor after its comma-skipping loop. -/
def zoneStart (data : Nat → Char) (len : Nat) : Nat :=
  (commaLoop data len (len - (cursorBeforeZone data len).pos) (cursorBeforeZone data len)).pos

/-! ## Reference notions and sample inputs -/

/-- Arithmetic mean of a list. -/
def listMean (xs : List ℚ) : ℚ := xs.sum / (xs.length : ℚ)

/-- Sum of the squared deviations of a list from its arithmetic mean. -/
def sumSqDev (xs : List ℚ) : ℚ := (xs.map (fun x => (x - listMean xs) ^ 2)).sum

/-- Accumulators that arise from a fresh one by calls of `update` whose
arguments satisfy `P`, and by merge steps between such accumulators. -/
inductive ReachableBy (P : Obs → Prop) : NodeAccumulator → Prop
  | fresh : ReachableBy P {}
  | update (a : NodeAccumulator) (o : Obs) : ReachableBy P a → P o → ReachableBy P (a.updateObs o)
  | merge (g l : NodeAccumulator) : ReachableBy P g → ReachableBy P l →
      ReachableBy P (mergeStep g l)

/-- Accumulators reachable by any calls of `update` and merge steps. -/
def Reachable : NodeAccumulator → Prop := ReachableBy (fun _ => True)

/-- Sum of the 24 entries of `hourly_count`. -/
def hourlyTotal (a : NodeAccumulator) : Int := ∑ h : Fin 24, a.hourly_count h

/-- Hours that pass the guard `hour >= 0 && hour < 24` of `update`. -/
def hourInRange (o : Obs) : Prop := 0 ≤ o.hour ∧ o.hour < 24

/-- An observation with hour 24, outside the hourly buckets. -/
def lateObs : Obs :=
  { spread := 1, cong_spread := 0, energy_spread := 0, hour := 24, zone_name := ['Z'],
    node_id := 7 }

/-- A line whose timestamp text, where the parser looks for it, has the two
characters `99` after the space. -/
def hour99Line : List Char := "a,b,c,d,e,f,g,1,2,h,i,j,k,l,m,3,4,x 99:00,5,Z,1".toList

/-- The 24 columns of a line laid out as the input schema has it: column 7
congestion_da, 9 energy_da, 17 congestion_rt, 19 energy_rt, 20 the timestamp,
21 the location id, 22 the zone, 23 the spread. -/
def sampleColumns : List String :=
  ["c0", "c1", "c2", "c3", "c4", "c5", "c6", "10.5", "8.5", "20.1", "c10", "c11", "c12",
   "c13", "c14", "15.5", "16.5", "9.0", "18.5", "19.0", "2023-01-15 14:30:00", "12345",
   "ZONE_A", "1.23"]

/-- The line made of `sampleColumns`, comma separated. -/
def sampleLine : List Char := (",".intercalate sampleColumns).toList

/-- The line of `sampleColumns` with columns 8, 16 and 18 left empty. -/
def sparseLine : List Char :=
  "c0,c1,c2,c3,c4,c5,c6,10.5,,20.1,c10,c11,c12,c13,c14,c15,,9.0,,19.0,2023-01-15 14:30:00,12345,ZONE_A,1.23".toList

/-- A line of three columns. -/
def shortLine : List Char := "1,2,3".toList

/-- A line of 24 columns with the text `abc` where congestion_da is expected. -/
def nonNumericLine : List Char :=
  "c0,c1,c2,c3,c4,c5,c6,abc,8.5,20.1,c10,c11,c12,c13,c14,15.5,16.5,9.0,18.5,19.0,2023-01-15 14:30:00,12345,ZONE_A,1.23".toList

/-- A line of 18 columns that ends in a space. -/
def trailingSpaceLine : List Char := "a,b,c,d,e,f,g,1,2,h,i,j,k,l,m,3,4,x ".toList

/-- Sum of the squares of a list. -/
def sumSq (xs : List ℚ) : ℚ := (xs.map (fun x => x ^ 2)).sum

/-- The triple `(n, mean, M2)` of one tracked series summarises the list `xs`
of values folded into it: `n` is the length, `n * mean` the sum, and `M2` the
sum of squares less the squared sum over the length. -/
def Summarises (n : Int) (mean M2 : ℚ) (xs : List ℚ) : Prop :=
  n = (xs.length : Int) ∧ (xs.length : ℚ) * mean = xs.sum ∧
    M2 = sumSq xs - xs.sum ^ 2 / (xs.length : ℚ)

/-- The three tracked series of `a` summarise the observations `os`. -/
def AccSummarises (a : NodeAccumulator) (os : List Obs) : Prop :=
  Summarises a.n a.mean_spread a.M2_spread (os.map Obs.spread) ∧
  Summarises a.n a.mean_cong_spread a.M2_cong_spread (os.map Obs.cong_spread) ∧
  Summarises a.n a.mean_energy_spread a.M2_energy_spread (os.map Obs.energy_spread)

/-- Five observations of location 7 with spreads 1, 2, 3, 4, 5. -/
def sampleObs : List Obs :=
  [ { spread := 1, cong_spread := 2, energy_spread := -1, hour := 0, zone_name := ['Z'], node_id := 7 },
    { spread := 2, cong_spread := 4, energy_spread := -1, hour := 5, zone_name := ['Z'], node_id := 7 },
    { spread := 3, cong_spread := 6, energy_spread := -1, hour := 5, zone_name := ['Z'], node_id := 7 },
    { spread := 4, cong_spread := 8, energy_spread := -1, hour := 23, zone_name := ['Z'], node_id := 7 },
    { spread := 5, cong_spread := 10, energy_spread := -1, hour := 12, zone_name := ['Z'], node_id := 7 } ]

/-- The observations of `sampleObs` split into three groups, out of order. -/
def sampleGroups : List (List Obs) :=
  [ [ { spread := 3, cong_spread := 6, energy_spread := -1, hour := 5, zone_name := ['Z'], node_id := 7 },
      { spread := 1, cong_spread := 2, energy_spread := -1, hour := 0, zone_name := ['Z'], node_id := 7 } ],
    [ { spread := 5, cong_spread := 10, energy_spread := -1, hour := 12, zone_name := ['Z'], node_id := 7 } ],
    [ { spread := 2, cong_spread := 4, energy_spread := -1, hour := 5, zone_name := ['Z'], node_id := 7 },
      { spread := 4, cong_spread := 8, energy_spread := -1, hour := 23, zone_name := ['Z'], node_id := 7 } ] ]

/-- Number of lines whose row is valid and carries the location id `k`. -/
def validCount (lines : List (List Char)) (k : Int) : Nat :=
  lines.countP (fun l => (parse_line l).valid && decide ((parse_line l).pnode_id = k))

/-- The map `m` holds under each key `k` an aggregate with `n = c k` when
`c k` is positive and no entry when `c k` is zero. -/
def MapCounts (m : NodeMap) (c : Int → Nat) : Prop :=
  ∀ k, Option.map NodeAccumulator.n (m k) = if c k = 0 then none else some ((c k : Nat) : Int)

/-- Four input lines: three are parsed to location 18, one to location 0. -/
def sampleLines : List (List Char) := [sampleLine, shortLine, sampleLine, nonNumericLine]

/-- The text `s` is the field that starts at index `pos` of the line: the
buffer holds the characters of `s` from `pos` on, `s` has no comma, and the
field ends at the end of the line or at a comma. -/
def FieldAt (data : Nat → Char) (len pos : Nat) (s : List Char) : Prop :=
  (∀ i, i < s.length → data (pos + i) = s.getD i ',') ∧ (∀ c ∈ s, c ≠ ',') ∧
  (pos + s.length = len ∨ (pos + s.length < len ∧ data (pos + s.length) = ','))

/-- Value of a run of decimal digits, by position: the first digit counts
`10 ^ (number of digits after it)`. -/
def decimalValue : List Char → Int
  | [] => 0
  | c :: cs => ((c.toNat : Int) - 48) * 10 ^ cs.length + decimalValue cs

/-- A line whose first field is empty and whose second field is `ABC`. -/
def emptyThenText : List Char := ",ABC".toList

/-- A line with an empty field between the fields `12` and `34`. -/
def emptyBetweenInts : List Char := "12,,34".toList

/-- A line whose field at index 6 is the zone `ZONE_A`. -/
def zoneFieldLine : List Char := "12345,ZONE_A,1.23".toList

/-- A line whose first field is `-42abc`. -/
def negIntLine : List Char := "-42abc,7".toList

/-- A computable stand-in for `std::sqrt` on rationals, used on sample inputs:
exact on squares of integers and on 0, rounded down in general. -/
def sampleSqrt (q : ℚ) : ℚ := (Nat.sqrt (q.num.toNat * q.den) : ℚ) / (q.den : ℚ)

/-- An observation of location 7 in hour 1 with spread 5. -/
def constantObsA : Obs :=
  { spread := 5, cong_spread := 1, energy_spread := 4, hour := 1, zone_name := ['Z'],
    node_id := 7 }

/-- An observation of location 7 in hour 2 with spread 5. -/
def constantObsB : Obs :=
  { spread := 5, cong_spread := 3, energy_spread := 2, hour := 2, zone_name := ['Z'],
    node_id := 7 }

/-- 500 observations with spread 5: 250 with congestion spread 1 and energy
spread 4, then 250 with congestion spread 3 and energy spread 2. -/
def constantObs : List Obs :=
  List.replicate 250 constantObsA ++ List.replicate 250 constantObsB

/-- The test `acc.n < MIN_SAMPLE_SIZE` fails and the test
`std::abs(result.mean_spread) > transaction_cost_` succeeds: the aggregate
passes both filters of `calculate_results`. -/
def passesFilters (transaction_cost : ℚ) (acc : NodeAccumulator) : Bool :=
  decide (500 ≤ acc.n) && decide (transaction_cost < |acc.mean_spread|)

/-- Aggregate of location 1: 500 records, mean spread 0.75. -/
def accAtCost : NodeAccumulator :=
  { n := 500, mean_spread := 3 / 4, M2_spread := 500, pnode_id := 1 }

/-- Aggregate of location 2: 500 records, mean spread 0.750001. -/
def accAboveCost : NodeAccumulator :=
  { n := 500, mean_spread := 750001 / 1000000, M2_spread := 2000, pnode_id := 2 }

/-- Aggregate of location 3: 499 records, mean spread 2. -/
def accShort : NodeAccumulator :=
  { n := 499, mean_spread := 2, M2_spread := 499, pnode_id := 3 }

/-- Aggregate of location 4: 600 records, mean spread -3. -/
def accNegative : NodeAccumulator :=
  { n := 600, mean_spread := -3, M2_spread := 600, pnode_id := 4 }

/-- Entries of a global map with the four sample aggregates. -/
def sampleEntries : List (Int × NodeAccumulator) :=
  [(1, accAtCost), (2, accAboveCost), (3, accShort), (4, accNegative)]

/-- Average spread of hour `h`: `hourly_sum[h] / hourly_count[h]`. -/
def hourAvg (acc : NodeAccumulator) (h : Fin 24) : ℚ :=
  acc.hourly_sum h / (acc.hourly_count h : ℚ)

/-- State of the best-hour loop after the hours of the list `seen`: either no
seen hour with an observation has a non-zero average and the pair is still
`(0, 0)`, or the pair names a seen hour with an observation, its non-zero
average, and no seen hour with an observation has a larger absolute average. -/
def BestSoFar (acc : NodeAccumulator) (seen : List (Fin 24)) (st : Int × ℚ) : Prop :=
  (st = (0, 0) ∧ ∀ h ∈ seen, acc.hourly_count h > 0 → hourAvg acc h = 0) ∨
  (st.2 ≠ 0 ∧ (∃ b ∈ seen, st.1 = (b.val : Int) ∧ acc.hourly_count b > 0 ∧
      st.2 = hourAvg acc b) ∧
    ∀ h ∈ seen, acc.hourly_count h > 0 → |hourAvg acc h| ≤ |st.2|)

/-- One observation with spread 0 in hour 5. -/
def zeroSpreadObs : Obs :=
  { spread := 0, cong_spread := 0, energy_spread := 0, hour := 5, zone_name := ['Z'],
    node_id := 7 }

/-- 500 observations with spread 0 in hour 5. -/
def zeroSeries : List Obs := List.replicate 500 zeroSpreadObs

/-- An observation of location 7 with spread 10 whose hour reads 99, as for a
line like `hour99Line`. -/
def lateTenObs : Obs :=
  { spread := 10, cong_spread := 4, energy_spread := 6, hour := 99, zone_name := ['Z'],
    node_id := 7 }

/-- 250 observations with spread 0 in hour 5, then 250 observations with spread
10 whose hour reads 99. -/
def mixedSeries : List Obs :=
  List.replicate 250 zeroSpreadObs ++ List.replicate 250 lateTenObs

/-- Four results in three zones. -/
def sampleResults : List NodeResult :=
  [ { pnode_id := 1, zone := ['A'], sample_size := 500, mean_spread := 1, std_spread := 1,
      sharpe_ratio := 1, hit_rate := 1, mean_abs_spread := 1, congestion_mean := 0,
      congestion_std := 0, congestion_sharpe := 0, energy_mean := 0, energy_std := 0,
      energy_sharpe := 0, best_hour := 0, best_hour_avg := 0, net_profit_10mw := 0 },
    { pnode_id := 2, zone := ['B'], sample_size := 600, mean_spread := 1, std_spread := 1,
      sharpe_ratio := 4, hit_rate := 1, mean_abs_spread := 1, congestion_mean := 0,
      congestion_std := 0, congestion_sharpe := 0, energy_mean := 0, energy_std := 0,
      energy_sharpe := 0, best_hour := 0, best_hour_avg := 0, net_profit_10mw := 0 },
    { pnode_id := 3, zone := ['A'], sample_size := 700, mean_spread := 1, std_spread := 1,
      sharpe_ratio := 2, hit_rate := 1, mean_abs_spread := 1, congestion_mean := 0,
      congestion_std := 0, congestion_sharpe := 0, energy_mean := 0, energy_std := 0,
      energy_sharpe := 0, best_hour := 0, best_hour_avg := 0, net_profit_10mw := 0 },
    { pnode_id := 4, zone := ['C'], sample_size := 800, mean_spread := 1, std_spread := 1,
      sharpe_ratio := -1, hit_rate := 1, mean_abs_spread := 1, congestion_mean := 0,
      congestion_std := 0, congestion_sharpe := 0, energy_mean := 0, energy_std := 0,
      energy_sharpe := 0, best_hour := 0, best_hour_avg := 0, net_profit_10mw := 0 } ]

/-- Every entry of the map is a reachable aggregate with `n ≥ 1` that carries
its key as pnode_id. -/
def MapKeyed (m : NodeMap) : Prop :=
  ∀ k a, m k = some a → Reachable a ∧ 1 ≤ a.n ∧ a.pnode_id = k

/-- An observation of location 7 with spread 5. -/
def fiveObs : Obs :=
  { spread := 5, cong_spread := 2, energy_spread := 3, hour := 1, zone_name := ['Z'],
    node_id := 7 }

/-- The series of 500 copies of `fiveObs`. -/
def fiveSeries : List Obs := List.replicate 500 fiveObs

/-- The fold of 500 copies of `fiveObs`. -/
@[irreducible]
def longAcc : NodeAccumulator := foldUpdates (List.replicate 500 fiveObs)

/-- A map with the one location 7, whose aggregate is `longAcc`. -/
def longEntries : List (Int × NodeAccumulator) := [(7, longAcc)]

/-- The text at index `i` may start a number for `strtod`: after white space
and an optional sign comes a digit, or a point followed by a digit, or one of
the letters that begin the words `inf` and `nan`. -/
def startsWithNumber (data : Nat → Char) (fuel : Nat) (i : Nat) : Bool :=
  let j := skipSpaces data fuel i
  let k := if data j = '-' ∨ data j = '+' then j + 1 else j
  isDigit (data k) || (decide (data k = '.') && isDigit (data (k + 1))) ||
    decide (data k = 'i') || decide (data k = 'I') || decide (data k = 'n') ||
    decide (data k = 'N')

/-- A line whose zone, where the parser reads it, has 36 characters, followed
by the spread column `1.23`. -/
def longZoneLine : List Char :=
  "c0,c1,c2,c3,c4,c5,c6,10.5,,20.1,c10,c11,c12,c13,c14,c15,,9.0,,19.0,2023-01-15 14:30:00,12345,ABCDEFGHIJKLMNOPQRSTUVWXYZABCDEFGHIJ,1.23".toList

/-! ## Lemmas on the parser loops

Each loop, started with fuel `len - pos` or more, stops on its own exit
condition: the fuel never cuts a loop short. -/

theorem skipLoop_fuel (data : Nat → Char) (len : Nat) :
    ∀ (fuel : Nat) (p : FastCSVParser), len - p.pos ≤ fuel →
      skipLoop data len fuel p = skipLoop data len (len - p.pos) p := by
  intro fuel
  induction fuel with
  | zero =>
    intro p h
    have : len - p.pos = 0 := by omega
    rw [this]
  | succ fuel ih =>
    intro p h
    by_cases hlt : p.pos < len
    · obtain ⟨k, hk⟩ : ∃ k, len - p.pos = k + 1 := ⟨len - p.pos - 1, by omega⟩
      rw [hk]
      simp only [skipLoop, hlt, if_true]
      split_ifs with hc
      · have e1 := ih { (p.deref p.pos) with pos := p.pos + 1 } (by simp; omega)
        have e2 : len - (p.pos + 1) = k := by omega
        simp only [e2] at e1
        exact e1
      · rfl
    · have : len - p.pos = 0 := by omega
      rw [this]
      simp [skipLoop, hlt]

theorem skipLoop_exit (data : Nat → Char) (len : Nat) :
    ∀ (fuel : Nat) (p : FastCSVParser), len - p.pos ≤ fuel →
      len ≤ (skipLoop data len fuel p).pos ∨
        data (skipLoop data len fuel p).pos = ',' := by
  intro fuel
  induction fuel with
  | zero => intro p h; left; simp only [skipLoop]; omega
  | succ fuel ih =>
    intro p h
    simp only [skipLoop]
    split_ifs with hlt hc
    · exact ih _ (by simp; omega)
    · right; simpa [FastCSVParser.deref] using hc
    · left; omega

theorem commaLoop_exit (data : Nat → Char) (len : Nat) :
    ∀ (fuel : Nat) (p : FastCSVParser), len - p.pos ≤ fuel →
      len ≤ (commaLoop data len fuel p).pos ∨
        data (commaLoop data len fuel p).pos ≠ ',' := by
  intro fuel
  induction fuel with
  | zero => intro p h; left; simp only [commaLoop]; omega
  | succ fuel ih =>
    intro p h
    simp only [commaLoop]
    split_ifs with hlt hc
    · exact ih _ (by simp; omega)
    · right; simpa [FastCSVParser.deref] using hc
    · left; omega

theorem digitLoop_exit (data : Nat → Char) (len : Nat) :
    ∀ (fuel : Nat) (p : FastCSVParser) (val : Int), len - p.pos ≤ fuel →
      len ≤ (digitLoop data len fuel p val).1.pos ∨
        isDigit (data (digitLoop data len fuel p val).1.pos) = false := by
  intro fuel
  induction fuel with
  | zero => intro p val h; left; simp only [digitLoop]; omega
  | succ fuel ih =>
    intro p val h
    simp only [digitLoop]
    split_ifs with hlt hc
    · exact ih _ _ (by simp; omega)
    · right; simpa [FastCSVParser.deref] using hc
    · left; simp only; omega

theorem copyLoop_exit (data : Nat → Char) (len max_len : Nat) :
    ∀ (fuel : Nat) (p : FastCSVParser) (out : List Char), len - p.pos ≤ fuel →
      len ≤ (copyLoop data len max_len fuel p out).1.pos ∨
        data (copyLoop data len max_len fuel p out).1.pos = ',' ∨
        max_len - 1 ≤ (copyLoop data len max_len fuel p out).2.length := by
  intro fuel
  induction fuel with
  | zero => intro p out h; left; simp only [copyLoop]; omega
  | succ fuel ih =>
    intro p out h
    simp only [copyLoop]
    split_ifs with hlt hc hi
    · exact ih _ _ (by simp; omega)
    · right; right; simpa using hi
    · right; left; simpa [FastCSVParser.deref] using hc
    · left; simp only; omega

theorem spaceLoop_exit (data : Nat → Char) (len : Nat) :
    ∀ (fuel : Nat) (p : FastCSVParser), len - p.pos ≤ fuel →
      len ≤ (spaceLoop data len fuel p).pos ∨
        data (spaceLoop data len fuel p).pos = ' ' ∨
        data (spaceLoop data len fuel p).pos = ',' := by
  intro fuel
  induction fuel with
  | zero => intro p h; left; simp only [spaceLoop]; omega
  | succ fuel ih =>
    intro p h
    simp only [spaceLoop]
    split_ifs with hlt hc
    · exact ih _ (by simp; omega)
    · right
      simp only [FastCSVParser.deref]
      by_contra hne
      push_neg at hne
      exact hc hne
    · left; omega

/-! ## Lemmas on the running statistics -/

theorem sumSq_append (xs ys : List ℚ) : sumSq (xs ++ ys) = sumSq xs + sumSq ys := by
  simp [sumSq]

theorem summarises_nil : Summarises 0 0 0 [] := by
  simp [Summarises, sumSq]

theorem summarises_step {n : Int} {m M : ℚ} {xs : List ℚ} (x : ℚ)
    (h : Summarises n m M xs) :
    Summarises (n + 1) (m + (x - m) / ((n + 1 : Int) : ℚ))
      (M + (x - m) * (x - (m + (x - m) / ((n + 1 : Int) : ℚ)))) (xs ++ [x]) := by
  obtain ⟨hn, hm, hM⟩ := h
  subst hn
  have hk : ((xs.length : ℚ) + 1) ≠ 0 := by positivity
  refine ⟨by simp, ?_, ?_⟩
  · simp only [List.length_append, List.length_singleton, List.sum_append, List.sum_singleton]
    push_cast
    rw [← hm]
    field_simp
    ring
  · simp only [List.length_append, List.length_singleton, List.sum_append, List.sum_singleton,
      sumSq_append]
    push_cast
    rw [hM]
    rcases Nat.eq_zero_or_pos xs.length with h0 | hpos
    · have hs : xs.sum = 0 := by rw [← hm, h0]; simp
      have hq : sumSq xs = 0 := by
        rw [List.length_eq_zero] at h0; subst h0; simp [sumSq]
      simp [h0, hs, hq, sumSq]
    · have hk0 : (xs.length : ℚ) ≠ 0 := by positivity
      have hmean : m = xs.sum / (xs.length : ℚ) := by
        field_simp; linarith [hm]
      subst hmean
      simp only [sumSq, List.map_cons, List.map_nil, List.sum_cons, List.sum_nil]
      field_simp
      ring

theorem summarises_merge {n1 n2 : Int} {m1 M1 m2 M2 : ℚ} {xs ys : List ℚ}
    (h1 : Summarises n1 m1 M1 xs) (h2 : Summarises n2 m2 M2 ys) (hne : xs ≠ []) :
    Summarises (n1 + n2) (((n1 : ℚ) * m1 + (n2 : ℚ) * m2) / ((n1 + n2 : Int) : ℚ))
      (M1 + (M2 + (m2 - m1) * (m2 - m1) * (n1 : ℚ) * (n2 : ℚ) / ((n1 + n2 : Int) : ℚ)))
      (xs ++ ys) := by
  obtain ⟨hn1, hm1, hM1⟩ := h1
  obtain ⟨hn2, hm2, hM2⟩ := h2
  subst hn1 hn2
  have hpos : 0 < xs.length := List.length_pos.mpr hne
  have hk1 : (xs.length : ℚ) ≠ 0 := by positivity
  have hk : ((xs.length : ℚ) + (ys.length : ℚ)) ≠ 0 := by positivity
  have hmean1 : m1 = xs.sum / (xs.length : ℚ) := by
    field_simp; linarith [hm1]
  refine ⟨by simp, ?_, ?_⟩
  · simp only [List.length_append, List.sum_append]
    push_cast
    rw [← hm1, ← hm2]
    field_simp
  · simp only [List.length_append, List.sum_append, sumSq_append]
    push_cast
    rw [hM1, hM2]
    rcases Nat.eq_zero_or_pos ys.length with h0 | hpos2
    · have hs : ys.sum = 0 := by rw [← hm2, h0]; simp
      have hq : sumSq ys = 0 := by
        rw [List.length_eq_zero] at h0; subst h0; simp [sumSq]
      simp [h0, hs, hq]
    · have hk2 : (ys.length : ℚ) ≠ 0 := by positivity
      have hmean2 : m2 = ys.sum / (ys.length : ℚ) := by
        field_simp; linarith [hm2]
      subst hmean1 hmean2
      field_simp
      ring

theorem sum_sq_sub (xs : List ℚ) (m : ℚ) :
    (xs.map (fun x => (x - m) ^ 2)).sum = sumSq xs - 2 * m * xs.sum + (xs.length : ℚ) * m ^ 2 := by
  induction xs with
  | nil => simp [sumSq]
  | cons x xs ih =>
    simp only [List.map_cons, List.sum_cons, List.length_cons, sumSq] at ih ⊢
    rw [ih]
    push_cast
    ring

theorem summarises_mean {n : Int} {m M : ℚ} {xs : List ℚ}
    (h : Summarises n m M xs) (hne : xs ≠ []) :
    n = (xs.length : Int) ∧ m = listMean xs ∧ M = sumSqDev xs := by
  obtain ⟨hn, hm, hM⟩ := h
  have hpos : 0 < xs.length := List.length_pos.mpr hne
  have hk : (xs.length : ℚ) ≠ 0 := by positivity
  refine ⟨hn, ?_, ?_⟩
  · unfold listMean; field_simp; linarith [hm]
  · rw [hM, sumSqDev, sum_sq_sub, listMean]
    field_simp
    ring

theorem accSummarises_fresh : AccSummarises {} [] :=
  ⟨summarises_nil, summarises_nil, summarises_nil⟩

theorem accSummarises_update {a : NodeAccumulator} {os : List Obs} (o : Obs)
    (h : AccSummarises a os) : AccSummarises (a.updateObs o) (os ++ [o]) := by
  obtain ⟨h1, h2, h3⟩ := h
  refine ⟨?_, ?_, ?_⟩
  · simpa [NodeAccumulator.updateObs, NodeAccumulator.update] using summarises_step o.spread h1
  · simpa [NodeAccumulator.updateObs, NodeAccumulator.update] using
      summarises_step o.cong_spread h2
  · simpa [NodeAccumulator.updateObs, NodeAccumulator.update] using
      summarises_step o.energy_spread h3

theorem accSummarises_foldl (l : List Obs) :
    ∀ {a : NodeAccumulator} {os : List Obs}, AccSummarises a os →
      AccSummarises (l.foldl NodeAccumulator.updateObs a) (os ++ l) := by
  induction l with
  | nil => intro a os h; simpa using h
  | cons o l ih =>
    intro a os h
    have := ih (accSummarises_update o h)
    simpa [List.append_assoc] using this

theorem accSummarises_foldUpdates (l : List Obs) : AccSummarises (foldUpdates l) l := by
  simpa [foldUpdates] using accSummarises_foldl l accSummarises_fresh

theorem accSummarises_mergeStep {g l : NodeAccumulator} {os os2 : List Obs}
    (hg : AccSummarises g os) (hl : AccSummarises l os2) :
    AccSummarises (mergeStep g l) (os ++ os2) := by
  by_cases h0 : g.n = 0
  · have hnil : os = [] := by
      have := hg.1.1
      rw [h0] at this
      have h2 : (os.map Obs.spread).length = 0 := by exact_mod_cast this.symm
      simpa using h2
    subst hnil
    simpa [mergeStep, h0] using hl
  · have hne : os ≠ [] := by
      rintro rfl
      exact h0 (by simpa using hg.1.1)
    obtain ⟨g1, g2, g3⟩ := hg
    obtain ⟨l1, l2, l3⟩ := hl
    refine ⟨?_, ?_, ?_⟩
    · simpa [mergeStep, h0] using summarises_merge g1 l1 (by simpa using hne)
    · simpa [mergeStep, h0] using summarises_merge g2 l2 (by simpa using hne)
    · simpa [mergeStep, h0] using summarises_merge g3 l3 (by simpa using hne)

theorem accSummarises_mergeFold (groups : List (List Obs)) :
    ∀ {g : NodeAccumulator} {os : List Obs}, AccSummarises g os →
      AccSummarises ((groups.map foldUpdates).foldl mergeStep g) (os ++ groups.flatten) := by
  induction groups with
  | nil => intro g os h; simpa using h
  | cons grp groups ih =>
    intro g os h
    have := ih (accSummarises_mergeStep h (accSummarises_foldUpdates grp))
    simpa [List.append_assoc] using this

theorem listMean_perm {xs ys : List ℚ} (h : xs.Perm ys) : listMean xs = listMean ys := by
  simp [listMean, h.sum_eq, h.length_eq]

theorem sumSqDev_perm {xs ys : List ℚ} (h : xs.Perm ys) : sumSqDev xs = sumSqDev ys := by
  unfold sumSqDev
  rw [listMean_perm h]
  exact (h.map _).sum_eq

/-! ## Lemmas on the keyed maps -/

theorem mapCounts_empty : MapCounts NodeMap.empty (fun _ => 0) := by
  intro k; simp [NodeMap.empty]

theorem mapCounts_at {m : NodeMap} {c : Int → Nat} (h : MapCounts m c) (k : Int) :
    (m.at k).n = (c k : Int) := by
  have hk := h k
  unfold NodeMap.at
  cases hm : m k with
  | none =>
    rw [hm] at hk
    by_cases h0 : c k = 0
    · simp [h0]
    · simp [h0] at hk
  | some a =>
    rw [hm] at hk
    by_cases h0 : c k = 0
    · simp [h0] at hk
    · simp only [h0, if_false, Option.map_some', Option.some.injEq] at hk
      simpa using hk

theorem mapCounts_workerStep {m : NodeMap} {c : Int → Nat} (h : MapCounts m c)
    (line : List Char) :
    MapCounts (workerStep m line) (fun k => c k + validCount [line] k) := by
  intro k
  unfold workerStep validCount
  by_cases hv : (parse_line line).valid = true
  · by_cases hk : (parse_line line).pnode_id = k
    · subst hk
      have hat := mapCounts_at h (parse_line line).pnode_id
      simp [hv, NodeAccumulator.updateObs, NodeAccumulator.update, hat]
    · have hk2 : k ≠ (parse_line line).pnode_id := fun e => hk e.symm
      simp [hv, hk, Function.update_noteq hk2, h k]
  · simp [hv, h k]

theorem validCount_cons (line : List Char) (lines : List (List Char)) (k : Int) :
    validCount (line :: lines) k = validCount [line] k + validCount lines k := by
  simp [validCount, List.countP_cons, Nat.add_comm]

theorem mapCounts_foldl (lines : List (List Char)) :
    ∀ {m : NodeMap} {c : Int → Nat}, MapCounts m c →
      MapCounts (lines.foldl workerStep m) (fun k => c k + validCount lines k) := by
  induction lines with
  | nil => intro m c h; simpa [validCount] using h
  | cons line lines ih =>
    intro m c h
    have := ih (mapCounts_workerStep h line)
    intro k
    rw [List.foldl_cons, this k]
    simp only [validCount_cons line lines k, Nat.add_assoc]

theorem mapCounts_workerFold (lines : List (List Char)) :
    MapCounts (workerFold lines) (validCount lines) := by
  have := mapCounts_foldl lines mapCounts_empty
  simpa [workerFold] using this

theorem mapCounts_mergeInto {g l : NodeMap} {c1 c2 : Int → Nat} (hg : MapCounts g c1)
    (hl : MapCounts l c2) : MapCounts (mergeInto g l) (fun k => c1 k + c2 k) := by
  intro k
  have hlk := hl k
  unfold mergeInto
  cases hm : l k with
  | none =>
    rw [hm] at hlk
    have h0 : c2 k = 0 := by
      by_contra hne
      simp [hne] at hlk
    simp [h0, hg k]
  | some la =>
    rw [hm] at hlk
    have h0 : c2 k ≠ 0 := by
      intro h0
      simp [h0] at hlk
    have hn : la.n = (c2 k : Int) := by
      simp only [h0, if_false, Option.map_some', Option.some.injEq] at hlk
      simpa using hlk
    have hat := mapCounts_at hg k
    by_cases hz : (g.at k).n = 0
    · have hc1 : c1 k = 0 := by
        rw [hat] at hz
        exact_mod_cast hz
      simp [mergeStep, hz, hn, hc1, h0]
    · have hc1 : c1 k ≠ 0 := by
        intro e
        apply hz
        rw [hat, e]
        rfl
      simp [mergeStep, hz, hn, hat, h0, hc1]

theorem mapCounts_analyzeFold (lines : List (List Char)) (T : Nat) (order : List Nat) :
    ∀ {g : NodeMap} {c : Int → Nat}, MapCounts g c →
      MapCounts
        (order.foldl (fun g t => mergeInto g (workerFold (lineChunk lines T t))) g)
        (fun k => c k + (order.map (fun t => validCount (lineChunk lines T t) k)).sum) := by
  induction order with
  | nil => intro g c h; simpa using h
  | cons t order ih =>
    intro g c h
    have := ih (mapCounts_mergeInto h (mapCounts_workerFold (lineChunk lines T t)))
    intro k
    rw [List.foldl_cons, this k]
    simp [Nat.add_assoc]

theorem sum_range_ite (a T : Nat) :
    ((List.range T).map (fun t => if a = t then 1 else 0)).sum = if a < T then 1 else 0 := by
  induction T with
  | zero => simp
  | succ n ih =>
    rw [List.range_succ, List.map_append, List.sum_append, ih]
    simp only [List.map_cons, List.map_nil, List.sum_cons, List.sum_nil]
    split_ifs <;> omega

theorem sum_countP_mod {α : Type} (p : α → Bool) (T : Nat) (hT : 0 < T) (L : List (Nat × α)) :
    ((List.range T).map (fun t => L.countP (fun x => p x.2 && decide (x.1 % T = t)))).sum =
      L.countP (fun x => p x.2) := by
  induction L with
  | nil => simp
  | cons x L ih =>
    simp only [List.countP_cons]
    rw [List.sum_map_add, ih]
    congr 1
    by_cases hp : p x.2 = true
    · simp only [hp, Bool.true_and, decide_eq_true_eq, if_true]
      rw [sum_range_ite, if_pos (Nat.mod_lt _ hT)]
    · simp [hp]

theorem sum_validCount_lineChunk (lines : List (List Char)) (T : Nat) (hT : 0 < T) (k : Int) :
    ((List.range T).map (fun t => validCount (lineChunk lines T t) k)).sum =
      validCount lines k := by
  have h := sum_countP_mod
    (fun l => (parse_line l).valid && decide ((parse_line l).pnode_id = k)) T hT lines.enum
  have h2 : lines.enum.countP
      (fun x => ((parse_line x.2).valid && decide ((parse_line x.2).pnode_id = k))) =
      validCount lines k := by
    unfold validCount
    conv_rhs => rw [← List.enum_map_snd lines]
    rw [List.countP_map]
    rfl
  rw [← h2, ← h]
  congr 1
  apply List.map_congr_left
  intro t _
  unfold validCount lineChunk
  rw [List.countP_map, List.countP_filter]
  rfl

/-! ## Lemmas on reachable accumulators -/

theorem welford_term_nonneg (n : Int) (hn : 0 ≤ n) (m x : ℚ) :
    0 ≤ (x - m) * (x - (m + (x - m) / ((n + 1 : Int) : ℚ))) := by
  have hq : (0 : ℚ) ≤ (n : ℚ) := by exact_mod_cast hn
  have hk : ((n : ℚ) + 1) ≠ 0 := by positivity
  have e : (x - m) * (x - (m + (x - m) / ((n + 1 : Int) : ℚ))) =
      (x - m) ^ 2 * ((n : ℚ) / ((n : ℚ) + 1)) := by
    push_cast
    field_simp
    ring
  rw [e]
  positivity

theorem merge_term_nonneg (n1 n2 : Int) (h1 : 0 ≤ n1) (h2 : 0 ≤ n2) (M1 M2 d : ℚ)
    (hM1 : 0 ≤ M1) (hM2 : 0 ≤ M2) :
    0 ≤ M1 + (M2 + d * d * (n1 : ℚ) * (n2 : ℚ) / ((n1 + n2 : Int) : ℚ)) := by
  have q1 : (0 : ℚ) ≤ (n1 : ℚ) := by exact_mod_cast h1
  have q2 : (0 : ℚ) ≤ (n2 : ℚ) := by exact_mod_cast h2
  have q3 : (0 : ℚ) ≤ ((n1 + n2 : Int) : ℚ) := by push_cast; linarith
  have hd : 0 ≤ d * d := mul_self_nonneg d
  have : 0 ≤ d * d * (n1 : ℚ) * (n2 : ℚ) / ((n1 + n2 : Int) : ℚ) :=
    div_nonneg (mul_nonneg (mul_nonneg hd q1) q2) q3
  linarith

theorem reachableBy_nonneg {P : Obs → Prop} {a : NodeAccumulator} (h : ReachableBy P a) :
    0 ≤ a.n ∧ 0 ≤ a.M2_spread ∧ 0 ≤ a.M2_cong_spread ∧ 0 ≤ a.M2_energy_spread := by
  induction h with
  | fresh => simp
  | update a o _ _ ih =>
    obtain ⟨hn, h1, h2, h3⟩ := ih
    refine ⟨?_, ?_, ?_, ?_⟩
    · simp only [NodeAccumulator.updateObs, NodeAccumulator.update]; omega
    · simpa [NodeAccumulator.updateObs, NodeAccumulator.update] using
        add_nonneg h1 (welford_term_nonneg a.n hn a.mean_spread o.spread)
    · simpa [NodeAccumulator.updateObs, NodeAccumulator.update] using
        add_nonneg h2 (welford_term_nonneg a.n hn a.mean_cong_spread o.cong_spread)
    · simpa [NodeAccumulator.updateObs, NodeAccumulator.update] using
        add_nonneg h3 (welford_term_nonneg a.n hn a.mean_energy_spread o.energy_spread)
  | merge g l _ _ ihg ihl =>
    obtain ⟨gn, g1, g2, g3⟩ := ihg
    obtain ⟨ln, l1, l2, l3⟩ := ihl
    by_cases h0 : g.n = 0
    · simpa [mergeStep, h0] using And.intro ln (And.intro l1 (And.intro l2 l3))
    · refine ⟨?_, ?_, ?_, ?_⟩
      · simp only [mergeStep, h0, if_false]; omega
      · simpa [mergeStep, h0] using merge_term_nonneg g.n l.n gn ln _ _
          (l.mean_spread - g.mean_spread) g1 l1
      · simpa [mergeStep, h0] using merge_term_nonneg g.n l.n gn ln _ _
          (l.mean_cong_spread - g.mean_cong_spread) g2 l2
      · simpa [mergeStep, h0] using merge_term_nonneg g.n l.n gn ln _ _
          (l.mean_energy_spread - g.mean_energy_spread) g3 l3

theorem sum_bumpHour_of_inRange (f : Fin 24 → Int) (hour : Int) (h : 0 ≤ hour ∧ hour < 24) :
    ∑ i : Fin 24, bumpHour f hour 1 i = (∑ i : Fin 24, f i) + 1 := by
  unfold bumpHour
  rw [dif_pos h, Finset.sum_update_of_mem (Finset.mem_univ _)]
  rw [← Finset.add_sum_erase Finset.univ f (Finset.mem_univ ⟨hour.toNat, by omega⟩)]
  rw [Finset.sdiff_singleton_eq_erase]
  ring

theorem foldUpdates_reachableBy {P : Obs → Prop} (l : List Obs) (hl : ∀ o ∈ l, P o) :
    ∀ {a : NodeAccumulator}, ReachableBy P a →
      ReachableBy P (l.foldl NodeAccumulator.updateObs a) := by
  induction l with
  | nil => intro a h; simpa using h
  | cons o l ih =>
    intro a h
    exact ih (fun x hx => hl x (List.mem_cons_of_mem _ hx))
      (ReachableBy.update a o h (hl o (List.mem_cons_self _ _)))

theorem foldUpdates_n (l : List Obs) : (foldUpdates l).n = (l.length : Int) := by
  simpa using (accSummarises_foldUpdates l).1.1

theorem mergeStep_symm_of_ne (a b : NodeAccumulator) (ha : a.n ≠ 0) (hb : b.n ≠ 0) :
    (mergeStep a b).n = (mergeStep b a).n ∧
    (mergeStep a b).mean_spread = (mergeStep b a).mean_spread ∧
    (mergeStep a b).M2_spread = (mergeStep b a).M2_spread ∧
    (mergeStep a b).mean_cong_spread = (mergeStep b a).mean_cong_spread ∧
    (mergeStep a b).M2_cong_spread = (mergeStep b a).M2_cong_spread ∧
    (mergeStep a b).mean_energy_spread = (mergeStep b a).mean_energy_spread ∧
    (mergeStep a b).M2_energy_spread = (mergeStep b a).M2_energy_spread ∧
    (mergeStep a b).sum_abs_spread = (mergeStep b a).sum_abs_spread ∧
    (mergeStep a b).positive_count = (mergeStep b a).positive_count ∧
    (mergeStep a b).max_spread = (mergeStep b a).max_spread ∧
    (mergeStep a b).min_spread = (mergeStep b a).min_spread ∧
    (mergeStep a b).hourly_sum = (mergeStep b a).hourly_sum ∧
    (mergeStep a b).hourly_count = (mergeStep b a).hourly_count := by
  simp only [mergeStep, ha, hb, if_false]
  refine ⟨add_comm _ _, ?_, ?_, ?_, ?_, ?_, ?_, add_comm _ _, add_comm _ _, max_comm _ _,
    min_comm _ _, ?_, ?_⟩
  · rw [add_comm a.n b.n, add_comm ((a.n : ℚ) * _)]
  · rw [add_comm a.n b.n]; ring
  · rw [add_comm a.n b.n, add_comm ((a.n : ℚ) * _)]
  · rw [add_comm a.n b.n]; ring
  · rw [add_comm a.n b.n, add_comm ((a.n : ℚ) * _)]
  · rw [add_comm a.n b.n]; ring
  · funext h; exact add_comm _ _
  · funext h; exact add_comm _ _

/-! ## Lemmas on the frame of `update` -/

theorem bumpHour_apply {α : Type} [Add α] (arr : Fin 24 → α) (hour : Int) (x : α) (h : Fin 24) :
    bumpHour arr hour x h = if (h.val : Int) = hour then arr h + x else arr h := by
  unfold bumpHour
  by_cases hr : 0 ≤ hour ∧ hour < 24
  · rw [dif_pos hr]
    by_cases e : (h.val : Int) = hour
    · have : h = ⟨hour.toNat, by omega⟩ := by
        apply Fin.ext
        simp only
        omega
      rw [if_pos e, ← this, Function.update_same]
    · have : h ≠ ⟨hour.toNat, by omega⟩ := by
        intro c
        apply e
        rw [c]
        simp only
        omega
      simp [Function.update_noteq this, e]
  · rw [dif_neg hr]
    have : (h.val : Int) ≠ hour := by
      have := h.isLt
      omega
    simp [this]

theorem foldl_update_zone (l : List Obs) :
    ∀ (a : NodeAccumulator), 1 ≤ a.n →
      (l.foldl NodeAccumulator.updateObs a).zone = a.zone ∧
      (l.foldl NodeAccumulator.updateObs a).pnode_id = a.pnode_id := by
  induction l with
  | nil => intro a _; exact ⟨rfl, rfl⟩
  | cons o l ih =>
    intro a ha
    have h1 : 1 ≤ (a.updateObs o).n := by
      simp only [NodeAccumulator.updateObs, NodeAccumulator.update]; omega
    have hne : ¬ (a.n + 1 = 1) := by omega
    have hz : (a.updateObs o).zone = a.zone := by
      simp [NodeAccumulator.updateObs, NodeAccumulator.update, hne]
    have hp : (a.updateObs o).pnode_id = a.pnode_id := by
      simp [NodeAccumulator.updateObs, NodeAccumulator.update, hne]
    have := ih (a.updateObs o) h1
    rw [List.foldl_cons, this.1, this.2, hz, hp]
    exact ⟨rfl, rfl⟩

/-! ## Lemmas on fields of a line -/

theorem fieldAt_cons {data : Nat → Char} {len pos : Nat} {c : Char} {t : List Char}
    (h : FieldAt data len pos (c :: t)) :
    data pos = c ∧ c ≠ ',' ∧ pos < len ∧ FieldAt data len (pos + 1) t := by
  obtain ⟨h1, h2, h3⟩ := h
  refine ⟨?_, h2 c (List.mem_cons_self _ _), ?_, ?_, ?_, ?_⟩
  · simpa using h1 0 (by simp)
  · simp only [List.length_cons] at h3
    omega
  · intro i hi
    have := h1 (i + 1) (by simp; omega)
    simpa [Nat.add_assoc, Nat.add_comm 1 i] using this
  · intro x hx
    exact h2 x (List.mem_cons_of_mem _ hx)
  · simp only [List.length_cons] at h3
    rcases h3 with h3 | h3
    · left; omega
    · right
      refine ⟨by omega, ?_⟩
      have e : pos + 1 + t.length = pos + (t.length + 1) := by omega
      rw [e]; exact h3.2

theorem fieldAt_nil {data : Nat → Char} {len pos : Nat} (h : FieldAt data len pos []) :
    pos = len ∨ (pos < len ∧ data pos = ',') := by
  simpa using h.2.2

theorem commaLoop_pos_of_not_comma (data : Nat → Char) (len fuel : Nat) (p : FastCSVParser)
    (h : p.pos < len → data p.pos ≠ ',') : (commaLoop data len fuel p).pos = p.pos := by
  cases fuel with
  | zero => rfl
  | succ fuel =>
    simp only [commaLoop]
    split_ifs with hlt hc
    · exact absurd hc (h hlt)
    · rfl
    · rfl

theorem copyLoop_field (data : Nat → Char) (len m : Nat) :
    ∀ (s : List Char) (fuel : Nat) (p : FastCSVParser) (out : List Char),
      FieldAt data len p.pos s → len - p.pos ≤ fuel →
      (copyLoop data len m fuel p out).2 = out ++ s.take (m - 1 - out.length) ∧
      (copyLoop data len m fuel p out).1.pos = p.pos + min s.length (m - 1 - out.length) := by
  intro s
  induction s with
  | nil =>
    intro fuel p out hf _
    cases fuel with
    | zero => simp [copyLoop]
    | succ fuel =>
      simp only [copyLoop]
      rcases fieldAt_nil hf with h | ⟨_, hc⟩
      · have : ¬ p.pos < len := by omega
        simp [this]
      · split_ifs <;> simp_all [FastCSVParser.deref]
  | cons c t ih =>
    intro fuel p out hf hfuel
    obtain ⟨hc, hne, hlt, ht⟩ := fieldAt_cons hf
    cases fuel with
    | zero => omega
    | succ fuel =>
      simp only [copyLoop, hlt, if_true, hc]
      rw [if_pos hne]
      by_cases hi : out.length < m - 1
      · rw [if_pos hi]
        have := ih fuel { (p.deref p.pos) with pos := p.pos + 1 } (out ++ [c]) ht
          (by simp only; omega)
        obtain ⟨k, hk⟩ : ∃ k, m - 1 - out.length = k + 1 := ⟨m - 1 - out.length - 1, by omega⟩
        have hk2 : m - 1 - (out ++ [c]).length = k := by simp; omega
        rw [hk2] at this
        rw [hk, this.1, this.2]
        constructor
        · simp
        · simp only [List.length_cons]; omega
      · rw [if_neg hi]
        have hk : m - 1 - out.length = 0 := by omega
        simp [hk, FastCSVParser.deref]

theorem horner_eq_decimalValue (ds : List Char) :
    ∀ v : Int, ds.foldl (fun v c => v * 10 + charMinusZero c) v =
      v * 10 ^ ds.length + decimalValue ds := by
  induction ds with
  | nil => intro v; simp [decimalValue]
  | cons c cs ih =>
    intro v
    rw [List.foldl_cons, ih]
    simp only [decimalValue, charMinusZero, List.length_cons, pow_succ]
    ring

theorem digitLoop_field (data : Nat → Char) (len : Nat) :
    ∀ (s : List Char) (fuel : Nat) (p : FastCSVParser) (v : Int),
      FieldAt data len p.pos s → len - p.pos ≤ fuel →
      (digitLoop data len fuel p v).2 =
        (s.takeWhile isDigit).foldl (fun v c => v * 10 + charMinusZero c) v ∧
      (digitLoop data len fuel p v).1.pos = p.pos + (s.takeWhile isDigit).length := by
  intro s
  induction s with
  | nil =>
    intro fuel p v hf _
    cases fuel with
    | zero => simp [digitLoop]
    | succ fuel =>
      simp only [digitLoop]
      rcases fieldAt_nil hf with h | ⟨hlt, hc⟩
      · have : ¬ p.pos < len := by omega
        simp [this]
      · have hd : isDigit (data p.pos) = false := by rw [hc]; decide
        simp [hlt, hd, FastCSVParser.deref]
  | cons c t ih =>
    intro fuel p v hf hfuel
    obtain ⟨hc, _, hlt, ht⟩ := fieldAt_cons hf
    cases fuel with
    | zero => omega
    | succ fuel =>
      simp only [digitLoop, hlt, if_true, hc]
      by_cases hd : isDigit c = true
      · rw [if_pos hd]
        have := ih fuel { (p.deref p.pos) with pos := p.pos + 1 }
          (v * 10 + charMinusZero c) ht (by simp only; omega)
        rw [this.1, this.2]
        simp only [List.takeWhile_cons, hd, if_true, List.foldl_cons, List.length_cons]
        exact ⟨trivial, by omega⟩
      · rw [if_neg hd]
        simp [List.takeWhile_cons, hd, FastCSVParser.deref]

/-! ## Lemmas on the derived metrics -/

theorem sumSqDev_of_const (xs : List ℚ) (c : ℚ) (h : ∀ x ∈ xs, x = c) (hne : xs ≠ []) :
    sumSqDev xs = 0 := by
  have hx : xs = List.replicate xs.length c := List.eq_replicate_of_mem h
  have hpos : 0 < xs.length := List.length_pos.mpr hne
  have hk : (xs.length : ℚ) ≠ 0 := by positivity
  have hmean : listMean xs = c := by
    unfold listMean
    rw [hx]
    simp only [List.sum_replicate, List.length_replicate, nsmul_eq_mul]
    field_simp
  unfold sumSqDev
  rw [hmean]
  apply List.sum_eq_zero
  intro y hy
  obtain ⟨x, hxm, rfl⟩ := List.mem_map.mp hy
  rw [h x hxm]
  simp

theorem deriveResult_eq (sqrt : ℚ → ℚ) (tc : ℚ) (acc : NodeAccumulator) :
    deriveResult sqrt tc acc =
      { pnode_id := acc.pnode_id,
        zone := if acc.zone.isEmpty then ['N', '/', 'A'] else acc.zone,
        sample_size := acc.n,
        mean_spread := acc.mean_spread,
        std_spread := sqrt (sqrtArgs acc).1,
        hit_rate := (acc.positive_count : ℚ) / (acc.n : ℚ),
        mean_abs_spread := acc.sum_abs_spread / (acc.n : ℚ),
        sharpe_ratio :=
          if sqrt (sqrtArgs acc).1 > 0 then acc.mean_spread / sqrt (sqrtArgs acc).1 else 0,
        net_profit_10mw := max 0 (|acc.mean_spread| - tc) * 10 * (acc.n : ℚ),
        congestion_mean := acc.mean_cong_spread,
        congestion_std := sqrt (sqrtArgs acc).2.1,
        congestion_sharpe :=
          if sqrt (sqrtArgs acc).2.1 > 0 then acc.mean_cong_spread / sqrt (sqrtArgs acc).2.1
          else 0,
        energy_mean := acc.mean_energy_spread,
        energy_std := sqrt (sqrtArgs acc).2.2,
        energy_sharpe :=
          if sqrt (sqrtArgs acc).2.2 > 0 then acc.mean_energy_spread / sqrt (sqrtArgs acc).2.2
          else 0,
        best_hour := (bestHour acc).1,
        best_hour_avg := (bestHour acc).2 } := by
  simp only [deriveResult, deriveLogged, divLogged, bestHour, apply_ite Prod.fst]

theorem deriveResult_best_hour (sqrt : ℚ → ℚ) (tc : ℚ) (acc : NodeAccumulator) :
    (deriveResult sqrt tc acc).best_hour = (bestHour acc).1 ∧
    (deriveResult sqrt tc acc).best_hour_avg = (bestHour acc).2 :=
  ⟨rfl, rfl⟩

theorem bestHourStep_log_ne_zero (acc : NodeAccumulator) (st : (Int × ℚ) × List ℚ)
    (h : Fin 24) (hst : ∀ d ∈ st.2, d ≠ 0) : ∀ d ∈ (bestHourStep acc st h).2, d ≠ 0 := by
  unfold bestHourStep
  by_cases hc : acc.hourly_count h > 0
  · have hq : ((acc.hourly_count h : Int) : ℚ) ≠ 0 := by
      have : (0 : ℚ) < (acc.hourly_count h : ℚ) := by exact_mod_cast hc
      exact ne_of_gt this
    simp only [hc, if_true, divLogged]
    intro d hd
    split_ifs at hd <;>
    · simp only [List.mem_append, List.mem_singleton] at hd
      rcases hd with hd | hd
      · exact hst d hd
      · rw [hd]; exact hq
  · simp only [hc, if_false]
    exact hst

theorem bestHourLogged_log_ne_zero (acc : NodeAccumulator) :
    ∀ d ∈ (bestHourLogged acc).2, d ≠ 0 := by
  have : ∀ (l : List (Fin 24)) (st : (Int × ℚ) × List ℚ), (∀ d ∈ st.2, d ≠ 0) →
      ∀ d ∈ (l.foldl (bestHourStep acc) st).2, d ≠ 0 := by
    intro l
    induction l with
    | nil => intro st h; exact h
    | cons x l ih =>
      intro st h
      exact ih _ (bestHourStep_log_ne_zero acc st x h)
  exact this _ _ (by simp)

theorem deriveDivisors_ne_zero (sqrt : ℚ → ℚ) (tc : ℚ) (acc : NodeAccumulator)
    (hn : acc.n ≠ 0) : ∀ d ∈ deriveDivisors sqrt tc acc, d ≠ 0 := by
  have hq : (acc.n : ℚ) ≠ 0 := by exact_mod_cast hn
  intro d hd
  simp only [deriveDivisors, deriveLogged, varianceLogged, divLogged, List.mem_append,
    List.mem_singleton] at hd
  rcases hd with (((((((hd | hd) | hd) | hd) | hd) | hd) | hd) | hd) | hd
  · rw [hd]; exact hq
  · rw [hd]; exact hq
  · rw [hd]; exact hq
  · split_ifs at hd with hs
    · simp only [List.mem_singleton] at hd
      rw [hd]; exact ne_of_gt hs
    · simp at hd
  · rw [hd]; exact hq
  · split_ifs at hd with hs
    · simp only [List.mem_singleton] at hd
      rw [hd]; exact ne_of_gt hs
    · simp at hd
  · rw [hd]; exact hq
  · split_ifs at hd with hs
    · simp only [List.mem_singleton] at hd
      rw [hd]; exact ne_of_gt hs
    · simp at hd
  · exact bestHourLogged_log_ne_zero acc d hd

/-! ## Lemmas on `calculate_results` -/

theorem processEntry_eq (sqrt : ℚ → ℚ) (tc : ℚ) (rs : List NodeResult) (acc : NodeAccumulator) :
    processEntry sqrt tc rs acc =
      rs ++ (if passesFilters tc acc = true then [deriveResult sqrt tc acc] else []) := by
  unfold processEntry passesFilters
  by_cases h1 : acc.n < 500
  · have : ¬ (500 ≤ acc.n) := by omega
    simp [h1, this]
  · have h2 : 500 ≤ acc.n := by omega
    by_cases h3 : tc < |acc.mean_spread|
    · simp [h1, h2, h3, deriveResult_eq]
    · simp [h1, h2, h3, deriveResult_eq]

theorem foldl_processEntry (sqrt : ℚ → ℚ) (tc : ℚ) (entries : List (Int × NodeAccumulator)) :
    ∀ rs : List NodeResult,
      entries.foldl (fun rs e => processEntry sqrt tc rs e.2) rs =
        rs ++ (entries.filter (fun e => passesFilters tc e.2)).map
          (fun e => deriveResult sqrt tc e.2) := by
  induction entries with
  | nil => intro rs; simp
  | cons e entries ih =>
    intro rs
    rw [List.foldl_cons, ih, processEntry_eq]
    by_cases hp : passesFilters tc e.2 = true
    · simp [hp, List.filter_cons]
    · simp [hp, List.filter_cons]

theorem calculate_results_perm (sqrt : ℚ → ℚ) (tc : ℚ) (entries : List (Int × NodeAccumulator)) :
    (calculate_results sqrt tc entries).Perm
      ((entries.filter (fun e => passesFilters tc e.2)).map
        (fun e => deriveResult sqrt tc e.2)) := by
  unfold calculate_results sortDescBy
  rw [foldl_processEntry]
  simpa using List.perm_insertionSort _ _

theorem sortDescBy_sorted {α : Type} (key : α → ℚ) (l : List α) :
    (sortDescBy key l).Sorted (fun a b => key a ≥ key b) := by
  haveI : IsTotal α (fun a b => key a ≥ key b) := ⟨fun a b => le_total (key b) (key a)⟩
  haveI : IsTrans α (fun a b => key a ≥ key b) := ⟨fun a b c h1 h2 => le_trans h2 h1⟩
  exact List.sorted_insertionSort _ l

theorem mem_calculate_results (sqrt : ℚ → ℚ) (tc : ℚ) (entries : List (Int × NodeAccumulator))
    (r : NodeResult) :
    r ∈ calculate_results sqrt tc entries ↔
      ∃ e ∈ entries, passesFilters tc e.2 = true ∧ r = deriveResult sqrt tc e.2 := by
  rw [(calculate_results_perm sqrt tc entries).mem_iff]
  simp only [List.mem_map, List.mem_filter]
  constructor
  · rintro ⟨e, ⟨he, hp⟩, rfl⟩
    exact ⟨e, he, hp, rfl⟩
  · rintro ⟨e, he, hp, rfl⟩
    exact ⟨e, ⟨he, hp⟩, rfl⟩

theorem mem_calculate_results_singleton (sqrt : ℚ → ℚ) (tc : ℚ) (k : Int)
    (acc : NodeAccumulator) (hp : passesFilters tc acc = true) :
    deriveResult sqrt tc acc ∈ calculate_results sqrt tc [(k, acc)] :=
  (mem_calculate_results sqrt tc _ _).mpr ⟨(k, acc), List.mem_singleton.mpr rfl, hp, rfl⟩

theorem deriveResult_id (sqrt : ℚ → ℚ) (tc : ℚ) (acc : NodeAccumulator) :
    (deriveResult sqrt tc acc).pnode_id = acc.pnode_id ∧
    (deriveResult sqrt tc acc).sample_size = acc.n :=
  ⟨rfl, rfl⟩

theorem result_for_key_iff (sqrt : ℚ → ℚ) (tc : ℚ) (entries : List (Int × NodeAccumulator))
    (hkeys : (entries.map Prod.fst).Nodup) (hid : ∀ e ∈ entries, e.2.pnode_id = e.1)
    (k : Int) (acc : NodeAccumulator) (hmem : (k, acc) ∈ entries) :
    (∃ r ∈ calculate_results sqrt tc entries, r.pnode_id = k) ↔ passesFilters tc acc = true := by
  constructor
  · rintro ⟨r, hr, hk⟩
    obtain ⟨e, he, hp, rfl⟩ := (mem_calculate_results sqrt tc entries r).mp hr
    have hek : e.1 = k := by
      rw [← hid e he]; exact hk
    have : e = (k, acc) := List.inj_on_of_nodup_map hkeys he hmem hek
    rw [this] at hp
    exact hp
  · intro hp
    refine ⟨deriveResult sqrt tc acc, ?_, ?_⟩
    · exact (mem_calculate_results sqrt tc entries _).mpr ⟨(k, acc), hmem, hp, rfl⟩
    · exact hid (k, acc) hmem

theorem countP_result_for_key (sqrt : ℚ → ℚ) (tc : ℚ) (entries : List (Int × NodeAccumulator))
    (hkeys : (entries.map Prod.fst).Nodup) (hid : ∀ e ∈ entries, e.2.pnode_id = e.1)
    (k : Int) (acc : NodeAccumulator) (hmem : (k, acc) ∈ entries) :
    (calculate_results sqrt tc entries).countP (fun r => decide (r.pnode_id = k)) =
      if passesFilters tc acc = true then 1 else 0 := by
  rw [(calculate_results_perm sqrt tc entries).countP_eq, List.countP_map, List.countP_filter]
  have hcongr : ∀ e ∈ entries,
      (((fun r : NodeResult => decide (r.pnode_id = k)) ∘
          (fun e : Int × NodeAccumulator => deriveResult sqrt tc e.2)) e &&
        passesFilters tc e.2) = (decide (e.1 = k) && passesFilters tc acc) := by
    intro e he
    have h1 : (deriveResult sqrt tc e.2).pnode_id = e.1 := hid e he
    simp only [Function.comp, h1]
    by_cases hek : e.1 = k
    · have : e = (k, acc) := List.inj_on_of_nodup_map hkeys he hmem hek
      rw [this]
    · simp [hek]
  rw [List.countP_congr (fun e he => by rw [hcongr e he])]
  by_cases hp : passesFilters tc acc = true
  · simp only [hp, Bool.and_true, if_true]
    have h1 : entries.countP (fun e => decide (e.1 = k)) = (entries.map Prod.fst).count k := by
      rw [List.count, List.countP_map]
      apply List.countP_congr
      intro e _
      simp
    rw [h1]
    exact List.count_eq_one_of_mem hkeys (List.mem_map.mpr ⟨(k, acc), hmem, rfl⟩)
  · simp [hp]

/-! ## Lemmas on the best hour -/

theorem bestHourStep_fst (acc : NodeAccumulator) (st : (Int × ℚ) × List ℚ) (h : Fin 24) :
    (bestHourStep acc st h).1 =
      if acc.hourly_count h > 0 then
        if |acc.hourly_sum h / (acc.hourly_count h : ℚ)| > |st.1.2| then
          ((h.val : Int), acc.hourly_sum h / (acc.hourly_count h : ℚ))
        else st.1
      else st.1 := by
  unfold bestHourStep divLogged
  by_cases hc : acc.hourly_count h > 0
  · by_cases hg : |acc.hourly_sum h / (acc.hourly_count h : ℚ)| > |st.1.2|
    · simp only [hc, hg, if_true]
    · simp only [hc, hg, if_true, if_false]
  · simp only [hc, if_false]

theorem bestSoFar_step (acc : NodeAccumulator) (seen : List (Fin 24))
    (st : (Int × ℚ) × List ℚ) (h : Fin 24) (hinv : BestSoFar acc seen st.1) :
    BestSoFar acc (seen ++ [h]) (bestHourStep acc st h).1 := by
  obtain ⟨v, lg⟩ := st
  rw [bestHourStep_fst]
  simp only at hinv ⊢
  by_cases hc : acc.hourly_count h > 0
  · simp only [hc, if_true]
    by_cases hgt : |acc.hourly_sum h / (acc.hourly_count h : ℚ)| > |v.2|
    · simp only [hgt, if_true]
      right
      have hne : acc.hourly_sum h / (acc.hourly_count h : ℚ) ≠ 0 := by
        intro e
        rw [e, abs_zero] at hgt
        exact absurd hgt (not_lt.mpr (abs_nonneg _))
      refine ⟨hne, ⟨h, by simp, rfl, hc, rfl⟩, ?_⟩
      intro x hx hxc
      rcases List.mem_append.mp hx with hx | hx
      · rcases hinv with ⟨rfl, hz⟩ | ⟨_, _, hle⟩
        · rw [hz x hx hxc]; simp
        · exact le_of_lt (lt_of_le_of_lt (hle x hx hxc) hgt)
      · simp only [List.mem_singleton] at hx
        subst hx
        exact le_refl _
    · simp only [hgt, if_false]
      have hle : |hourAvg acc h| ≤ |v.2| := not_lt.mp hgt
      rcases hinv with ⟨rfl, hz⟩ | ⟨hne, ⟨b, hb, hb1, hb2, hb3⟩, hmax⟩
      · left
        refine ⟨rfl, ?_⟩
        intro x hx hxc
        rcases List.mem_append.mp hx with hx | hx
        · exact hz x hx hxc
        · simp only [List.mem_singleton] at hx
          subst hx
          simpa using hle
      · right
        refine ⟨hne, ⟨b, by simp [hb], hb1, hb2, hb3⟩, ?_⟩
        intro x hx hxc
        rcases List.mem_append.mp hx with hx | hx
        · exact hmax x hx hxc
        · simp only [List.mem_singleton] at hx
          subst hx
          exact hle
  · simp only [hc, if_false]
    rcases hinv with ⟨rfl, hz⟩ | ⟨hne, ⟨b, hb, hb1, hb2, hb3⟩, hmax⟩
    · left
      refine ⟨rfl, ?_⟩
      intro x hx hxc
      rcases List.mem_append.mp hx with hx | hx
      · exact hz x hx hxc
      · simp only [List.mem_singleton] at hx
        subst hx
        exact absurd hxc hc
    · right
      refine ⟨hne, ⟨b, by simp [hb], hb1, hb2, hb3⟩, ?_⟩
      intro x hx hxc
      rcases List.mem_append.mp hx with hx | hx
      · exact hmax x hx hxc
      · simp only [List.mem_singleton] at hx
        subst hx
        exact absurd hxc hc

theorem bestSoFar_foldl (acc : NodeAccumulator) (l : List (Fin 24)) :
    ∀ (seen : List (Fin 24)) (st : (Int × ℚ) × List ℚ), BestSoFar acc seen st.1 →
      BestSoFar acc (seen ++ l) (l.foldl (bestHourStep acc) st).1 := by
  induction l with
  | nil => intro seen st h; simpa using h
  | cons x l ih =>
    intro seen st h
    have := ih (seen ++ [x]) (bestHourStep acc st x) (bestSoFar_step acc seen st x h)
    simpa [List.append_assoc] using this

theorem bestSoFar_bestHour (acc : NodeAccumulator) :
    BestSoFar acc (List.finRange 24) (bestHour acc) := by
  have := bestSoFar_foldl acc (List.finRange 24) [] ((0, 0), []) (Or.inl ⟨rfl, by simp⟩)
  simpa [bestHour, bestHourLogged] using this

/-! ## Lemmas on maps kept as lists of entries -/

theorem mapModify_keys {κ ν : Type} [DecidableEq κ] (k : κ) (d : ν) (f : ν → ν)
    (m : List (κ × ν)) :
    (mapModify k d f m).map Prod.fst =
      if k ∈ m.map Prod.fst then m.map Prod.fst else m.map Prod.fst ++ [k] := by
  induction m with
  | nil => simp [mapModify]
  | cons e m ih =>
    obtain ⟨k1, v⟩ := e
    by_cases h : k1 = k
    · simp [mapModify, h]
    · have h2 : ¬ k = k1 := fun e => h e.symm
      simp only [mapModify, h, if_false, List.map_cons, ih, List.mem_cons, h2, false_or]
      split_ifs <;> simp

theorem mapGet_mapModify_same {κ ν : Type} [DecidableEq κ] (k : κ) (d : ν) (f : ν → ν)
    (m : List (κ × ν)) : mapGet k d (mapModify k d f m) = f (mapGet k d m) := by
  induction m with
  | nil => simp [mapModify, mapGet]
  | cons e m ih =>
    obtain ⟨k1, v⟩ := e
    by_cases h : k1 = k
    · simp [mapModify, mapGet, h]
    · simp [mapModify, mapGet, h, ih]

theorem mapGet_mapModify_other {κ ν : Type} [DecidableEq κ] (k k2 : κ) (d : ν) (f : ν → ν)
    (m : List (κ × ν)) (hne : k2 ≠ k) : mapGet k2 d (mapModify k d f m) = mapGet k2 d m := by
  induction m with
  | nil =>
    have : ¬ k = k2 := fun e => hne e.symm
    simp [mapModify, mapGet, this]
  | cons e m ih =>
    obtain ⟨k1, v⟩ := e
    by_cases h : k1 = k
    · have hkk : ¬ k = k2 := fun e => hne e.symm
      subst h
      simp [mapModify, mapGet, hkk]
    · by_cases h2 : k1 = k2
      · subst h2
        simp [mapModify, mapGet, h]
      · simp [mapModify, mapGet, h, h2, ih]

theorem mapGet_of_mem {κ ν : Type} [DecidableEq κ] (d : ν) (m : List (κ × ν))
    (hnd : (m.map Prod.fst).Nodup) (k : κ) (v : ν) (hmem : (k, v) ∈ m) : mapGet k d m = v := by
  induction m with
  | nil => simp at hmem
  | cons e m ih =>
    obtain ⟨k1, v1⟩ := e
    simp only [List.map_cons, List.nodup_cons] at hnd
    rcases List.mem_cons.mp hmem with h | h
    · cases h
      simp [mapGet]
    · have hk : k1 ≠ k := by
        intro e
        apply hnd.1
        rw [e]
        exact List.mem_map.mpr ⟨(k, v), h, rfl⟩
      simp [mapGet, hk, ih hnd.2 h]

theorem foldl_mapModify_keys_mem {ρ κ ν : Type} [DecidableEq κ] (key : ρ → κ) (d : ν)
    (upd : ρ → ν → ν) (rs : List ρ) :
    ∀ (m : List (κ × ν)) (k : κ),
      k ∈ (rs.foldl (fun m r => mapModify (key r) d (upd r) m) m).map Prod.fst ↔
        k ∈ m.map Prod.fst ∨ ∃ r ∈ rs, key r = k := by
  induction rs with
  | nil => intro m k; simp
  | cons r rs ih =>
    intro m k
    rw [List.foldl_cons, ih, mapModify_keys]
    by_cases hk : key r ∈ m.map Prod.fst
    · rw [if_pos hk]
      constructor
      · rintro (h | ⟨x, hx, e⟩)
        · exact Or.inl h
        · exact Or.inr ⟨x, List.mem_cons_of_mem _ hx, e⟩
      · rintro (h | ⟨x, hx, e⟩)
        · exact Or.inl h
        · rcases List.mem_cons.mp hx with rfl | hx
          · left; rw [← e]; exact hk
          · exact Or.inr ⟨x, hx, e⟩
    · rw [if_neg hk]
      constructor
      · rintro (h | ⟨x, hx, e⟩)
        · rcases List.mem_append.mp h with h | h
          · exact Or.inl h
          · simp only [List.mem_singleton] at h
            exact Or.inr ⟨r, List.mem_cons_self _ _, h.symm⟩
        · exact Or.inr ⟨x, List.mem_cons_of_mem _ hx, e⟩
      · rintro (h | ⟨x, hx, e⟩)
        · exact Or.inl (List.mem_append.mpr (Or.inl h))
        · rcases List.mem_cons.mp hx with rfl | hx
          · left; rw [← e]; simp
          · exact Or.inr ⟨x, hx, e⟩

theorem foldl_mapModify_keys_nodup {ρ κ ν : Type} [DecidableEq κ] (key : ρ → κ) (d : ν)
    (upd : ρ → ν → ν) (rs : List ρ) :
    ∀ (m : List (κ × ν)), (m.map Prod.fst).Nodup →
      ((rs.foldl (fun m r => mapModify (key r) d (upd r) m) m).map Prod.fst).Nodup := by
  induction rs with
  | nil => intro m h; simpa using h
  | cons r rs ih =>
    intro m h
    rw [List.foldl_cons]
    apply ih
    rw [mapModify_keys]
    by_cases hk : key r ∈ m.map Prod.fst
    · rw [if_pos hk]; exact h
    · rw [if_neg hk]
      exact List.Nodup.append h (List.nodup_singleton _) (by
        intro x hx hx2
        simp only [List.mem_singleton] at hx2
        subst hx2
        exact hk hx)

theorem foldl_mapModify_get {ρ κ ν : Type} [DecidableEq κ] (key : ρ → κ) (d : ν)
    (upd : ρ → ν → ν) (rs : List ρ) :
    ∀ (m : List (κ × ν)) (k : κ),
      mapGet k d (rs.foldl (fun m r => mapModify (key r) d (upd r) m) m) =
        (rs.filter (fun r => decide (key r = k))).foldl (fun v r => upd r v) (mapGet k d m) := by
  induction rs with
  | nil => intro m k; simp
  | cons r rs ih =>
    intro m k
    rw [List.foldl_cons, ih]
    by_cases hk : key r = k
    · subst hk
      simp [List.filter_cons, mapGet_mapModify_same]
    · have hk2 : k ≠ key r := fun e => hk e.symm
      simp [List.filter_cons, hk, mapGet_mapModify_other _ _ _ _ _ hk2]

theorem sum_ite_eq_one {κ : Type} [DecidableEq κ] (a : κ) (K : List κ) (hK : K.Nodup)
    (ha : a ∈ K) : (K.map (fun z => if a = z then (1 : Int) else 0)).sum = 1 := by
  induction K with
  | nil => simp at ha
  | cons z K ihK =>
    simp only [List.nodup_cons] at hK
    by_cases hz : a = z
    · have hzero : ∀ y ∈ K, (if a = y then (1 : Int) else 0) = 0 := by
        intro y hy
        have : a ≠ y := by
          intro e
          apply hK.1
          rw [← hz, e]; exact hy
        simp [this]
      simp only [List.map_cons, List.sum_cons, hz, if_true]
      rw [← hz, List.map_congr_left hzero]
      simp
    · have ha2 : a ∈ K := by
        rcases List.mem_cons.mp ha with h | h
        · exact absurd h hz
        · exact h
      simp only [List.map_cons, List.sum_cons, hz, if_false, zero_add]
      exact ihK hK.2 ha2

theorem sum_filter_length_of_nodup {ρ κ : Type} [DecidableEq κ] (key : ρ → κ) (K : List κ)
    (hK : K.Nodup) (rs : List ρ) (hcover : ∀ r ∈ rs, key r ∈ K) :
    (K.map (fun z => (((rs.filter (fun r => decide (key r = z))).length : Nat) : Int))).sum =
      (rs.length : Int) := by
  induction rs with
  | nil => simp
  | cons r rs ih =>
    have hrest : ∀ x ∈ rs, key x ∈ K := fun x hx => hcover x (List.mem_cons_of_mem _ hx)
    have hr : key r ∈ K := hcover r (List.mem_cons_self _ _)
    have hsplit : ∀ z, ((((r :: rs).filter (fun r => decide (key r = z))).length : Nat) : Int) =
        (if key r = z then 1 else 0) +
          (((rs.filter (fun r => decide (key r = z))).length : Nat) : Int) := by
      intro z
      by_cases hz : key r = z
      · simp [List.filter_cons, hz]; ring
      · simp [List.filter_cons, hz]
    simp only [hsplit]
    rw [List.sum_map_add, ih hrest, sum_ite_eq_one (key r) K hK hr, List.length_cons]
    push_cast
    ring

theorem foldl_zoneStep_sharpes (rs : List NodeResult) :
    ∀ m : ZoneMaps, (rs.foldl zoneStep m).zone_sharpes =
      rs.foldl (fun ms r => mapModify r.zone [] (fun v => v ++ [r.sharpe_ratio]) ms)
        m.zone_sharpes := by
  induction rs with
  | nil => intro m; rfl
  | cons r rs ih => intro m; rw [List.foldl_cons, ih]; rfl

theorem foldl_zoneStep_counts (rs : List NodeResult) :
    ∀ m : ZoneMaps, (rs.foldl zoneStep m).zone_counts =
      rs.foldl (fun ms r => mapModify r.zone 0 (fun c => c + 1) ms) m.zone_counts := by
  induction rs with
  | nil => intro m; rfl
  | cons r rs ih => intro m; rw [List.foldl_cons, ih]; rfl

theorem foldl_zoneStep_samples (rs : List NodeResult) :
    ∀ m : ZoneMaps, (rs.foldl zoneStep m).zone_samples =
      rs.foldl (fun ms r => mapModify r.zone 0 (fun c => c + r.sample_size) ms)
        m.zone_samples := by
  induction rs with
  | nil => intro m; rfl
  | cons r rs ih => intro m; rw [List.foldl_cons, ih]; rfl

theorem foldl_push_back (rs : List NodeResult) :
    ∀ v : List ℚ, rs.foldl (fun v r => v ++ [r.sharpe_ratio]) v =
      v ++ rs.map NodeResult.sharpe_ratio := by
  induction rs with
  | nil => intro v; simp
  | cons r rs ih => intro v; rw [List.foldl_cons, ih]; simp

theorem foldl_increment (rs : List NodeResult) :
    ∀ c : Int, rs.foldl (fun c _ => c + 1) c = c + (rs.length : Int) := by
  induction rs with
  | nil => intro c; simp
  | cons r rs ih => intro c; rw [List.foldl_cons, ih, List.length_cons]; push_cast; ring

theorem foldl_add_samples (rs : List NodeResult) :
    ∀ c : Int, rs.foldl (fun c r => c + r.sample_size) c =
      c + (rs.map NodeResult.sample_size).sum := by
  induction rs with
  | nil => intro c; simp
  | cons r rs ih =>
    intro c
    rw [List.foldl_cons, ih, List.map_cons, List.sum_cons]
    ring

theorem foldl_add_eq_sum (l : List ℚ) :
    ∀ a : ℚ, l.foldl (fun sum s => sum + s) a = a + l.sum := by
  induction l with
  | nil => intro a; simp
  | cons x l ih => intro a; rw [List.foldl_cons, ih, List.sum_cons]; ring

theorem zoneSummaryOf_spec (results : List NodeResult) (e : List Char × List ℚ)
    (he : e ∈ (results.foldl zoneStep
      { zone_sharpes := [], zone_counts := [], zone_samples := [] }).zone_sharpes) :
    let s := zoneSummaryOf (results.foldl zoneStep
      { zone_sharpes := [], zone_counts := [], zone_samples := [] }) e
    let members := results.filter (fun r => decide (r.zone = e.1))
    s.zone = e.1 ∧
    s.num_profitable_nodes = (members.length : Int) ∧
    s.total_samples = (members.map NodeResult.sample_size).sum ∧
    s.avg_sharpe = (members.map NodeResult.sharpe_ratio).sum / (members.length : ℚ) := by
  intro s members
  have hnd := foldl_mapModify_keys_nodup NodeResult.zone ([] : List ℚ)
    (fun r v => v ++ [r.sharpe_ratio]) results [] (by simp)
  have hsh : e.2 = members.map NodeResult.sharpe_ratio := by
    have h1 := mapGet_of_mem ([] : List ℚ) _ hnd e.1 e.2
      (by rw [foldl_zoneStep_sharpes] at he; exact he)
    have h2 := foldl_mapModify_get NodeResult.zone ([] : List ℚ)
      (fun r v => v ++ [r.sharpe_ratio]) results [] e.1
    rw [h1] at h2
    rw [h2, foldl_push_back]
    simp [mapGet, members]
  refine ⟨rfl, ?_, ?_, ?_⟩
  · have h2 := foldl_mapModify_get NodeResult.zone (0 : Int)
      (fun _ c => c + 1) results [] e.1
    simp only [s, zoneSummaryOf, foldl_zoneStep_counts]
    rw [h2, foldl_increment]
    simp [mapGet, members]
  · have h2 := foldl_mapModify_get NodeResult.zone (0 : Int)
      (fun r c => c + r.sample_size) results [] e.1
    simp only [s, zoneSummaryOf, foldl_zoneStep_samples]
    rw [h2, foldl_add_samples]
    simp [mapGet, members]
  · simp only [s, zoneSummaryOf]
    rw [foldl_add_eq_sum, hsh]
    simp

/-! ## Lemmas on the extrema and the sums -/

theorem foldl_update_extrema (l : List Obs) :
    ∀ a : NodeAccumulator,
      a.max_spread ≤ (l.foldl NodeAccumulator.updateObs a).max_spread ∧
      (∀ o ∈ l, o.spread ≤ (l.foldl NodeAccumulator.updateObs a).max_spread) ∧
      ((l.foldl NodeAccumulator.updateObs a).max_spread = a.max_spread ∨
        ∃ o ∈ l, (l.foldl NodeAccumulator.updateObs a).max_spread = o.spread) ∧
      (l.foldl NodeAccumulator.updateObs a).min_spread ≤ a.min_spread ∧
      (∀ o ∈ l, (l.foldl NodeAccumulator.updateObs a).min_spread ≤ o.spread) ∧
      ((l.foldl NodeAccumulator.updateObs a).min_spread = a.min_spread ∨
        ∃ o ∈ l, (l.foldl NodeAccumulator.updateObs a).min_spread = o.spread) := by
  induction l with
  | nil => intro a; simp
  | cons x l ih =>
    intro a
    obtain ⟨h1, h2, h3, h4, h5, h6⟩ := ih (a.updateObs x)
    have hmax : (a.updateObs x).max_spread = max a.max_spread x.spread := rfl
    have hmin : (a.updateObs x).min_spread = min a.min_spread x.spread := rfl
    rw [hmax] at h1 h3
    rw [hmin] at h4 h6
    rw [List.foldl_cons]
    refine ⟨le_trans (le_max_left _ _) h1, ?_, ?_, le_trans h4 (min_le_left _ _), ?_, ?_⟩
    · intro o ho
      rcases List.mem_cons.mp ho with rfl | ho
      · exact le_trans (le_max_right _ _) h1
      · exact h2 o ho
    · rcases h3 with h3 | ⟨o, ho, h3⟩
      · rcases max_choice a.max_spread x.spread with hc | hc
        · left; rw [h3, hc]
        · right; exact ⟨x, List.mem_cons_self _ _, by rw [h3, hc]⟩
      · right; exact ⟨o, List.mem_cons_of_mem _ ho, h3⟩
    · intro o ho
      rcases List.mem_cons.mp ho with rfl | ho
      · exact le_trans h4 (min_le_right _ _)
      · exact h5 o ho
    · rcases h6 with h6 | ⟨o, ho, h6⟩
      · rcases min_choice a.min_spread x.spread with hc | hc
        · left; rw [h6, hc]
        · right; exact ⟨x, List.mem_cons_self _ _, by rw [h6, hc]⟩
      · right; exact ⟨o, List.mem_cons_of_mem _ ho, h6⟩

theorem foldl_update_sums (l : List Obs) :
    ∀ a : NodeAccumulator,
      (l.foldl NodeAccumulator.updateObs a).sum_abs_spread =
        a.sum_abs_spread + (l.map (fun o => |o.spread|)).sum ∧
      (l.foldl NodeAccumulator.updateObs a).positive_count =
        a.positive_count + ((l.countP (fun o => decide (o.spread > 0)) : Nat) : Int) := by
  induction l with
  | nil => intro a; simp
  | cons x l ih =>
    intro a
    obtain ⟨h1, h2⟩ := ih (a.updateObs x)
    have hs : (a.updateObs x).sum_abs_spread = a.sum_abs_spread + |x.spread| := rfl
    have hp : (a.updateObs x).positive_count =
        if x.spread > 0 then a.positive_count + 1 else a.positive_count := rfl
    rw [List.foldl_cons, h1, h2, hs, hp]
    constructor
    · simp only [List.map_cons, List.sum_cons]; ring
    · by_cases hx : x.spread > 0
      · simp only [hx, if_true, List.countP_cons, decide_True]
        push_cast
        ring
      · simp [hx, List.countP_cons]

/-! ## Lemmas on the maps of `analyze` -/

theorem reachableBy_positive_count {P : Obs → Prop} {a : NodeAccumulator}
    (h : ReachableBy P a) : 0 ≤ a.positive_count ∧ a.positive_count ≤ a.n := by
  induction h with
  | fresh => simp
  | update a o _ _ ih =>
    obtain ⟨h1, h2⟩ := ih
    simp only [NodeAccumulator.updateObs, NodeAccumulator.update]
    split_ifs <;> constructor <;> omega
  | merge g l _ _ ihg ihl =>
    by_cases h0 : g.n = 0
    · simpa [mergeStep, h0] using ihl
    · simp only [mergeStep, h0, if_false]
      constructor <;> omega

theorem mapKeyed_empty : MapKeyed NodeMap.empty := by
  intro k a h
  simp [NodeMap.empty] at h

theorem mapKeyed_at {m : NodeMap} (h : MapKeyed m) (k : Int) :
    Reachable (m.at k) ∧ ((m.at k).n = 0 ∨ (1 ≤ (m.at k).n ∧ (m.at k).pnode_id = k)) := by
  unfold NodeMap.at
  cases hm : m k with
  | none => exact ⟨ReachableBy.fresh, Or.inl rfl⟩
  | some a =>
    obtain ⟨h1, h2, h3⟩ := h k a hm
    exact ⟨h1, Or.inr ⟨h2, h3⟩⟩

theorem mapKeyed_workerStep {m : NodeMap} (h : MapKeyed m) (line : List Char) :
    MapKeyed (workerStep m line) := by
  intro k a hk
  unfold workerStep at hk
  by_cases hv : (parse_line line).valid = true
  · simp only [hv, Bool.not_true, Bool.false_eq_true, if_false] at hk
    by_cases hkey : k = (parse_line line).pnode_id
    · subst hkey
      rw [Function.update_same] at hk
      cases hk
      obtain ⟨hr, hn⟩ := mapKeyed_at h (parse_line line).pnode_id
      refine ⟨ReachableBy.update _ _ hr trivial, ?_, ?_⟩
      · have := (reachableBy_nonneg hr).1
        simp only [NodeAccumulator.updateObs, NodeAccumulator.update]
        omega
      · rcases hn with hn | ⟨hn, hid⟩
        · simp [NodeAccumulator.updateObs, NodeAccumulator.update, hn, rowObs]
        · have : ¬ ((m.at (parse_line line).pnode_id).n + 1 = 1) := by omega
          simp [NodeAccumulator.updateObs, NodeAccumulator.update, this, hid]
    · rw [Function.update_noteq hkey] at hk
      exact h k a hk
  · simp only [hv, Bool.not_false, if_true] at hk
    exact h k a hk

theorem mapKeyed_workerFold (lines : List (List Char)) : MapKeyed (workerFold lines) := by
  unfold workerFold
  have : ∀ (ls : List (List Char)) (m : NodeMap), MapKeyed m →
      MapKeyed (ls.foldl workerStep m) := by
    intro ls
    induction ls with
    | nil => intro m h; exact h
    | cons l ls ih => intro m h; exact ih _ (mapKeyed_workerStep h l)
  exact this lines _ mapKeyed_empty

theorem mapKeyed_mergeInto {g l : NodeMap} (hg : MapKeyed g) (hl : MapKeyed l) :
    MapKeyed (mergeInto g l) := by
  intro k a hk
  unfold mergeInto at hk
  cases hm : l k with
  | none =>
    rw [hm] at hk
    exact hg k a hk
  | some la =>
    rw [hm] at hk
    simp only [Option.some.injEq] at hk
    subst hk
    obtain ⟨lr, ln, lid⟩ := hl k la hm
    obtain ⟨gr, gn⟩ := mapKeyed_at hg k
    refine ⟨ReachableBy.merge _ _ gr lr, ?_⟩
    rcases gn with gn | ⟨gn, gid⟩
    · simp [mergeStep, gn, ln, lid]
    · have h0 : (g.at k).n ≠ 0 := by omega
      simp only [mergeStep, h0, if_false]
      exact ⟨by omega, gid⟩

theorem mapKeyed_analyzeMerge (lines : List (List Char)) (T : Nat) (order : List Nat) :
    MapKeyed (analyzeMerge lines T order) := by
  unfold analyzeMerge
  have : ∀ (ts : List Nat) (g : NodeMap), MapKeyed g →
      MapKeyed (ts.foldl (fun g t => mergeInto g (workerFold (lineChunk lines T t))) g) := by
    intro ts
    induction ts with
    | nil => intro g h; exact h
    | cons t ts ih =>
      intro g h
      exact ih _ (mapKeyed_mergeInto h (mapKeyed_workerFold _))
  exact this order _ mapKeyed_empty

theorem foldUpdates_reachable (l : List Obs) : Reachable (foldUpdates l) :=
  foldUpdates_reachableBy l (fun _ _ => trivial) ReachableBy.fresh

theorem foldUpdates_replicate (o : Obs) (k : Nat) (hk : 0 < k) :
    (foldUpdates (List.replicate k o)).n = (k : Int) ∧
    (foldUpdates (List.replicate k o)).mean_spread = o.spread := by
  have hne : List.replicate k o ≠ [] := by
    intro h
    have := congrArg List.length h
    simp at this
    omega
  have hq : (k : ℚ) ≠ 0 := by positivity
  refine ⟨by rw [foldUpdates_n]; simp, ?_⟩
  have h := (accSummarises_foldUpdates (List.replicate k o)).1
  rw [(summarises_mean h (by simpa using hne)).2.1]
  simp only [listMean, List.map_replicate, List.sum_replicate, List.length_replicate,
    nsmul_eq_mul]
  field_simp

/-! ## Lemmas on the truncated zone -/

theorem scanDigits_of_not_digit (data : Nat → Char) (fuel i : Nat)
    (h : isDigit (data i) = false) : scanDigits data fuel i 0 0 = (0, 0, i) := by
  cases fuel with
  | zero => rfl
  | succ fuel => simp [scanDigits, h]

theorem strtod_of_not_number (data : Nat → Char) (fuel i : Nat)
    (h : startsWithNumber data fuel i = false) : strtod data fuel i = (0, i) := by
  simp only [startsWithNumber, Bool.or_eq_false_iff, Bool.and_eq_false_imp,
    decide_eq_true_eq, decide_eq_false_iff_not] at h
  obtain ⟨⟨⟨⟨⟨hd, hpt⟩, _⟩, _⟩, _⟩, _⟩ := h
  unfold strtod
  simp only []
  rw [scanDigits_of_not_digit data fuel _ hd]
  by_cases hp : data (if data (skipSpaces data fuel i) = '-' ∨ data (skipSpaces data fuel i) = '+'
      then skipSpaces data fuel i + 1 else skipSpaces data fuel i) = '.'
  · simp only [hp, if_true]
    rw [scanDigits_of_not_digit data fuel _ (hpt hp)]
    simp
  · simp [hp]

theorem fieldAt_getD_ne_comma {data : Nat → Char} {len pos : Nat} {s : List Char}
    (hf : FieldAt data len pos s) (i : Nat) (hi : i < s.length) :
    data (pos + i) ≠ ',' ∧ pos + i < len := by
  obtain ⟨h1, h2, h3⟩ := hf
  constructor
  · rw [h1 i hi, List.getD_eq_getElem _ _ hi]
    exact h2 _ (List.getElem_mem _)
  · omega

/-! ## The parser on sample lines -/

/-- With columns 8, 16 and 18 empty the comma-skipping loop of `parse_double`
makes up for the short skips, and the parser returns the values of columns 7,
9, 17, 19, 20, 21, 22 and 23. -/
theorem parse_line_sparseLine :
    parse_line sparseLine =
      { pnode_id := 12345, zone := ['Z', 'O', 'N', 'E', '_', 'A'], spread := 123 / 100,
        congestion_da := 21 / 2, congestion_rt := 9, energy_da := 201 / 10, energy_rt := 19,
        hour := 14, valid := true } := by
  decide!

/-- C1, the code at a well-formed line of 24 columns: `sampleLine` has
congestion_da 10.5 in column 7, energy_da 20.1 in column 9, congestion_rt 9.0 in
column 17, energy_rt 19.0 in column 19, the timestamp in column 20, id 12345 in
column 21, zone ZONE_A in column 22 and spread 1.23 in column 23, yet the parser
returns energy_da 8.5 (column 8), cong_rt 15.5 (column 15), energy_rt 16.5
(column 16), hour 0, pnode_id 18 (from column 18), zone ".5" (rest of column
18) and spread 19 (column 19); only cong_da is column 7. -/
theorem parse_line_sampleLine :
    sampleColumns.length = 24 ∧
    sampleColumns.drop 7 = ["10.5", "8.5", "20.1", "c10", "c11", "c12", "c13", "c14", "15.5",
      "16.5", "9.0", "18.5", "19.0", "2023-01-15 14:30:00", "12345", "ZONE_A", "1.23"] ∧
    parse_line sampleLine =
      { pnode_id := 18, zone := ['.', '5'], spread := 19, congestion_da := 21 / 2,
        congestion_rt := 31 / 2, energy_da := 17 / 2, energy_rt := 33 / 2, hour := 0,
        valid := true } ∧
    (rowObs (parse_line sampleLine)).cong_spread = -5 ∧
    (rowObs (parse_line sampleLine)).energy_spread = -8 := by
  decide!

/-- C2, the code at malformed lines: `CSVRowParser::parse` returns true for
every buffer, so every row is valid; the three-column line `shortLine` and the
line `nonNumericLine` with `abc` in column 7 are both parsed as valid rows, and
a worker folds `shortLine` into the aggregate of location 0. -/
theorem parse_accepts_malformed_lines :
    (∀ (data : Nat → Char) (len : Nat), (parse data len).ok = true) ∧
    (∀ line : List Char, (parse_line line).valid = true) ∧
    (parse_line shortLine).valid = true ∧
    (parse_line nonNumericLine).valid = true ∧
    (parse_line nonNumericLine).congestion_da = 0 ∧
    ((workerFold [shortLine] 0).map NodeAccumulator.n) = some 1 := by
  refine ⟨fun _ _ => rfl, fun _ => rfl, rfl, rfl, by decide!, by decide!⟩

/-- C3, the code at a line that ends in a space: on `trailingSpaceLine`, of
length 36, the hour extraction dereferences indices 36 and 37 and `parse_int`
index 36; on the empty line, of length 0, `parse_int` dereferences index 0. -/
theorem parse_reads_beyond_len :
    trailingSpaceLine.length = 36 ∧
    36 ∈ (parse (c_str trailingSpaceLine) 36).reads ∧
    37 ∈ (parse (c_str trailingSpaceLine) 36).reads ∧
    (parse (c_str []) 0).reads = [0] := by
  decide!

/-! ## Welford folds and merges -/

/-- C4: folding a non-empty list of observations with `update` into a fresh
accumulator gives `n` the length of the list and, for each of the three
series, `mean` the arithmetic mean and `M2` the sum of squared deviations from
that mean; when the spreads are 1, 2, 3, 4, 5 the mean is 3 and `M2 / n` is 2. -/
theorem foldUpdates_welford (os : List Obs) (hne : os ≠ []) :
    (foldUpdates os).n = (os.length : Int) ∧
    (foldUpdates os).mean_spread = listMean (os.map Obs.spread) ∧
    (foldUpdates os).M2_spread = sumSqDev (os.map Obs.spread) ∧
    (foldUpdates os).mean_cong_spread = listMean (os.map Obs.cong_spread) ∧
    (foldUpdates os).M2_cong_spread = sumSqDev (os.map Obs.cong_spread) ∧
    (foldUpdates os).mean_energy_spread = listMean (os.map Obs.energy_spread) ∧
    (foldUpdates os).M2_energy_spread = sumSqDev (os.map Obs.energy_spread) ∧
    (os.map Obs.spread = [1, 2, 3, 4, 5] →
      (foldUpdates os).mean_spread = 3 ∧
      (foldUpdates os).M2_spread / ((foldUpdates os).n : ℚ) = 2) := by
  obtain ⟨h1, h2, h3⟩ := accSummarises_foldUpdates os
  have e1 := summarises_mean h1 (by simpa using hne)
  have e2 := summarises_mean h2 (by simpa using hne)
  have e3 := summarises_mean h3 (by simpa using hne)
  have hn : (foldUpdates os).n = (os.length : Int) := by simpa using e1.1
  refine ⟨hn, e1.2.1, e1.2.2, e2.2.1, e2.2.2, e3.2.1, e3.2.2, ?_⟩
  intro hs
  have hlen : os.length = 5 := by
    have := congrArg List.length hs
    simpa using this
  rw [e1.2.1, e1.2.2, hn, hs, hlen]
  constructor
  · norm_num [listMean]
  · norm_num [sumSqDev, listMean]

/-- Witness of C4 at `sampleObs`, whose spreads are 1, 2, 3, 4, 5. -/
theorem foldUpdates_welford_sampleObs :
    sampleObs ≠ [] ∧
    (foldUpdates sampleObs).mean_spread = 3 ∧
    (foldUpdates sampleObs).M2_spread / ((foldUpdates sampleObs).n : ℚ) = 2 :=
  ⟨by decide, (foldUpdates_welford sampleObs (by decide)).2.2.2.2.2.2.2 (by decide)⟩

/-- C5: when a list of observations is split into non-empty groups in any way
(`whole` is a rearrangement of the groups laid end to end), each group is folded
into its own fresh accumulator, and the accumulators are merged into the global
one in the order of the list `groups`, the result has the same `n`, the same
means, the same `M2` and the same `M2 / n` for the three series as the fold of
the whole list into one accumulator. -/
theorem merge_of_groups_eq_single_fold (groups : List (List Obs)) (whole : List Obs)
    (hgroups : ∀ grp ∈ groups, grp ≠ []) (hperm : whole.Perm groups.flatten) :
    let merged := (groups.map foldUpdates).foldl mergeStep {}
    let single := foldUpdates whole
    merged.n = single.n ∧
    merged.mean_spread = single.mean_spread ∧
    merged.mean_cong_spread = single.mean_cong_spread ∧
    merged.mean_energy_spread = single.mean_energy_spread ∧
    merged.M2_spread = single.M2_spread ∧
    merged.M2_cong_spread = single.M2_cong_spread ∧
    merged.M2_energy_spread = single.M2_energy_spread ∧
    merged.M2_spread / (merged.n : ℚ) = single.M2_spread / (single.n : ℚ) ∧
    merged.M2_cong_spread / (merged.n : ℚ) = single.M2_cong_spread / (single.n : ℚ) ∧
    merged.M2_energy_spread / (merged.n : ℚ) = single.M2_energy_spread / (single.n : ℚ) := by
  intro merged single
  rcases groups with _ | ⟨grp, rest⟩
  · have hw : whole = [] := by simpa using hperm
    subst hw
    simp [merged, single, foldUpdates]
  · have hne2 : (grp :: rest).flatten ≠ [] := by
      have := hgroups grp (by simp)
      simp [this]
    have hne1 : whole ≠ [] := by
      rintro rfl
      exact hne2 (by simpa using hperm)
    obtain ⟨m1, m2, m3⟩ : AccSummarises merged (grp :: rest).flatten := by
      simpa [merged] using accSummarises_mergeFold (grp :: rest) accSummarises_fresh
    obtain ⟨s1, s2, s3⟩ := accSummarises_foldUpdates whole
    have a1 := summarises_mean m1 (by simpa using hne2)
    have a2 := summarises_mean m2 (by simpa using hne2)
    have a3 := summarises_mean m3 (by simpa using hne2)
    have b1 := summarises_mean s1 (by simpa using hne1)
    have b2 := summarises_mean s2 (by simpa using hne1)
    have b3 := summarises_mean s3 (by simpa using hne1)
    have hn : merged.n = single.n := by
      have := hperm.length_eq
      have h1 := a1.1
      have h2 := b1.1
      simp only [List.length_map] at h1 h2
      rw [h1, h2, this]
    have p1 := hperm.map Obs.spread
    have p2 := hperm.map Obs.cong_spread
    have p3 := hperm.map Obs.energy_spread
    have e1 : merged.mean_spread = single.mean_spread := by
      rw [a1.2.1, b1.2.1, listMean_perm p1]
    have e2 : merged.mean_cong_spread = single.mean_cong_spread := by
      rw [a2.2.1, b2.2.1, listMean_perm p2]
    have e3 : merged.mean_energy_spread = single.mean_energy_spread := by
      rw [a3.2.1, b3.2.1, listMean_perm p3]
    have f1 : merged.M2_spread = single.M2_spread := by
      rw [a1.2.2, b1.2.2, sumSqDev_perm p1]
    have f2 : merged.M2_cong_spread = single.M2_cong_spread := by
      rw [a2.2.2, b2.2.2, sumSqDev_perm p2]
    have f3 : merged.M2_energy_spread = single.M2_energy_spread := by
      rw [a3.2.2, b3.2.2, sumSqDev_perm p3]
    exact ⟨hn, e1, e2, e3, f1, f2, f3, by rw [f1, hn], by rw [f2, hn], by rw [f3, hn]⟩

/-- Witness of C5: `sampleObs` split into the groups of `sampleGroups`. -/
theorem merge_of_groups_eq_single_fold_sample :
    (∀ grp ∈ sampleGroups, grp ≠ []) ∧ sampleObs.Perm sampleGroups.flatten ∧
    ((sampleGroups.map foldUpdates).foldl mergeStep {}).n = (foldUpdates sampleObs).n ∧
    ((sampleGroups.map foldUpdates).foldl mergeStep {}).mean_spread =
      (foldUpdates sampleObs).mean_spread ∧
    ((sampleGroups.map foldUpdates).foldl mergeStep {}).M2_spread =
      (foldUpdates sampleObs).M2_spread :=
  have h := merge_of_groups_eq_single_fold sampleGroups sampleObs (by decide) (by decide)
  ⟨by decide, by decide, h.1, h.2.1, h.2.2.2.2.1⟩

/-! ## The merge phase -/

/-- C6: for every list of input lines, every number of workers `T ≥ 1` and
every order in which the `T` workers merge their local maps, the global map
after the merge phase holds under each location id `k` an aggregate whose `n`
is the number of valid rows with id `k` in the whole input, and holds no entry
under `k` when no valid row carries `k`. -/
theorem analyzeMerge_counts (lines : List (List Char)) (T : Nat) (order : List Nat)
    (hT : 0 < T) (hperm : order.Perm (List.range T)) (k : Int) :
    (validCount lines k = 0 → analyzeMerge lines T order k = none) ∧
    (0 < validCount lines k →
      ∃ a, analyzeMerge lines T order k = some a ∧ a.n = (validCount lines k : Int)) := by
  have h := mapCounts_analyzeFold lines T order mapCounts_empty k
  have hs : (order.map (fun t => validCount (lineChunk lines T t) k)).sum =
      validCount lines k := by
    rw [(hperm.map _).sum_eq]
    exact sum_validCount_lineChunk lines T hT k
  simp only [Nat.zero_add, hs] at h
  change Option.map NodeAccumulator.n (analyzeMerge lines T order k) = _ at h
  constructor
  · intro h0
    simpa [h0] using h
  · intro hpos
    have hne : validCount lines k ≠ 0 := Nat.pos_iff_ne_zero.mp hpos
    simp only [hne, if_false] at h
    cases hm : analyzeMerge lines T order k with
    | none => rw [hm] at h; simp at h
    | some a =>
      rw [hm] at h
      exact ⟨a, rfl, by simpa using h⟩

/-- Witness of C6: `sampleLines` with three workers merging in the order 2, 0, 1;
three of the four lines are parsed to location 18. -/
theorem analyzeMerge_counts_sample :
    0 < 3 ∧ [2, 0, 1].Perm (List.range 3) ∧
    ∃ a, analyzeMerge sampleLines 3 [2, 0, 1] 18 = some a ∧ a.n = 3 := by
  have hc : validCount sampleLines 18 = 3 := by decide!
  have h := (analyzeMerge_counts sampleLines 3 [2, 0, 1] (by decide) (by decide) 18).2
    (by rw [hc]; decide)
  rw [hc] at h
  exact ⟨by decide, by decide, h⟩

/-- C7: when the global aggregate has count 0, the merge step returns the
worker's aggregate itself, equal to it in every field, and evaluates no
division; the same holds in the map when the global map has no entry yet
under the key. -/
theorem mergeStep_of_n_eq_zero (g l : NodeAccumulator) (h : g.n = 0) :
    mergeStep g l = l ∧ mergeStepDivisors g l = [] ∧
    (∀ (gm lm : NodeMap) (k : Int), gm k = none → lm k = some l →
      mergeInto gm lm k = some l) := by
  refine ⟨by simp [mergeStep, h], by simp [mergeStepDivisors, h], ?_⟩
  intro gm lm k hg hl
  simp [mergeInto, hl, NodeMap.at, hg, mergeStep]

/-- Witness of C7: a fresh global aggregate and the fold of `sampleObs`. -/
theorem mergeStep_of_n_eq_zero_sample :
    ({} : NodeAccumulator).n = 0 ∧
    mergeStep {} (foldUpdates sampleObs) = foldUpdates sampleObs ∧
    mergeStepDivisors {} (foldUpdates sampleObs) = [] :=
  have h := mergeStep_of_n_eq_zero {} (foldUpdates sampleObs) rfl
  ⟨rfl, h.1, h.2.1⟩

/-- C8: for two aggregates built by `update` from non-empty lists of
observations, merging the second into the first and the first into the second
give the same `n`, the same mean and `M2` of each of the three series, and the
same `sum_abs_spread`, `positive_count`, `max_spread`, `min_spread`,
`hourly_sum` and `hourly_count`. -/
theorem mergeStep_comm (la lb : List Obs) (ha : la ≠ []) (hb : lb ≠ []) :
    let a := foldUpdates la
    let b := foldUpdates lb
    (mergeStep a b).n = (mergeStep b a).n ∧
    (mergeStep a b).mean_spread = (mergeStep b a).mean_spread ∧
    (mergeStep a b).M2_spread = (mergeStep b a).M2_spread ∧
    (mergeStep a b).mean_cong_spread = (mergeStep b a).mean_cong_spread ∧
    (mergeStep a b).M2_cong_spread = (mergeStep b a).M2_cong_spread ∧
    (mergeStep a b).mean_energy_spread = (mergeStep b a).mean_energy_spread ∧
    (mergeStep a b).M2_energy_spread = (mergeStep b a).M2_energy_spread ∧
    (mergeStep a b).sum_abs_spread = (mergeStep b a).sum_abs_spread ∧
    (mergeStep a b).positive_count = (mergeStep b a).positive_count ∧
    (mergeStep a b).max_spread = (mergeStep b a).max_spread ∧
    (mergeStep a b).min_spread = (mergeStep b a).min_spread ∧
    (mergeStep a b).hourly_sum = (mergeStep b a).hourly_sum ∧
    (mergeStep a b).hourly_count = (mergeStep b a).hourly_count := by
  intro a b
  have hna : a.n ≠ 0 := by
    have hlen : 0 < la.length := List.length_pos.mpr ha
    have : a.n = (la.length : Int) := foldUpdates_n la
    omega
  have hnb : b.n ≠ 0 := by
    have hlen : 0 < lb.length := List.length_pos.mpr hb
    have : b.n = (lb.length : Int) := foldUpdates_n lb
    omega
  exact mergeStep_symm_of_ne a b hna hnb

/-- Witness of C8: the folds of the first two and of the last three observations
of `sampleObs`. -/
theorem mergeStep_comm_sample :
    sampleObs.take 2 ≠ [] ∧ sampleObs.drop 2 ≠ [] ∧
    (mergeStep (foldUpdates (sampleObs.take 2)) (foldUpdates (sampleObs.drop 2))).mean_spread =
      (mergeStep (foldUpdates (sampleObs.drop 2)) (foldUpdates (sampleObs.take 2))).mean_spread ∧
    (mergeStep (foldUpdates (sampleObs.take 2)) (foldUpdates (sampleObs.drop 2))).M2_spread =
      (mergeStep (foldUpdates (sampleObs.drop 2)) (foldUpdates (sampleObs.take 2))).M2_spread :=
  have h := mergeStep_comm (sampleObs.take 2) (sampleObs.drop 2) (by decide) (by decide)
  ⟨by decide, by decide, h.2.1, h.2.2.1⟩

/-- C9 as stated fails: one `update` with hour 24 gives a reachable accumulator
with `n = 1` whose 24 hourly counts sum to 0; the parser yields such hours, as
on `hour99Line`, where it returns hour 99. -/
theorem hourlyTotal_ne_n_lateObs :
    Reachable (({} : NodeAccumulator).updateObs lateObs) ∧
    (({} : NodeAccumulator).updateObs lateObs).n = 1 ∧
    hourlyTotal (({} : NodeAccumulator).updateObs lateObs) = 0 ∧
    (parse_line hour99Line).hour = 99 := by
  refine ⟨ReachableBy.update _ _ ReachableBy.fresh trivial, rfl, ?_, by decide!⟩
  simp [hourlyTotal, NodeAccumulator.updateObs, NodeAccumulator.update, bumpHour, lateObs]

/-- C9 amended: for every accumulator obtained from a fresh one by calls of
`update` whose hour lies in 0..23 and by merge steps between such
accumulators, the 24 entries of `hourly_count` sum to `n`. -/
theorem hourlyTotal_eq_n (a : NodeAccumulator) (h : ReachableBy hourInRange a) :
    hourlyTotal a = a.n := by
  induction h with
  | fresh => simp [hourlyTotal]
  | update a o _ ho ih =>
    have := sum_bumpHour_of_inRange a.hourly_count o.hour ho
    simp only [hourlyTotal, NodeAccumulator.updateObs, NodeAccumulator.update] at ih ⊢
    rw [this, ih]
  | merge g l _ _ ihg ihl =>
    by_cases h0 : g.n = 0
    · simpa [mergeStep, h0] using ihl
    · simp only [hourlyTotal, mergeStep, h0, if_false, Finset.sum_add_distrib] at ihg ihl ⊢
      rw [ihg, ihl]

/-- Witness of C9 amended: the fold of `sampleObs`, whose hours are 0, 5, 5,
23 and 12. -/
theorem hourlyTotal_eq_n_sample :
    ReachableBy hourInRange (foldUpdates sampleObs) ∧
    hourlyTotal (foldUpdates sampleObs) = (foldUpdates sampleObs).n :=
  have hr : ReachableBy hourInRange (foldUpdates sampleObs) :=
    foldUpdates_reachableBy sampleObs (by unfold hourInRange; decide) ReachableBy.fresh
  ⟨hr, hourlyTotal_eq_n (foldUpdates sampleObs) hr⟩

/-- C10: for every accumulator reachable from a fresh one by calls of `update`
and by merge steps between reachable accumulators, `M2_spread`,
`M2_cong_spread` and `M2_energy_spread` are non-negative, and when `n > 0`
the three arguments `M2 / n` of the square roots of `calculate_results` are
non-negative. -/
theorem reachable_M2_nonneg (a : NodeAccumulator) (h : Reachable a) :
    0 ≤ a.M2_spread ∧ 0 ≤ a.M2_cong_spread ∧ 0 ≤ a.M2_energy_spread ∧
    (0 < a.n → 0 ≤ (sqrtArgs a).1 ∧ 0 ≤ (sqrtArgs a).2.1 ∧ 0 ≤ (sqrtArgs a).2.2) := by
  obtain ⟨hn, h1, h2, h3⟩ := reachableBy_nonneg h
  refine ⟨h1, h2, h3, ?_⟩
  intro _
  have hq : (0 : ℚ) ≤ (a.n : ℚ) := by exact_mod_cast hn
  exact ⟨div_nonneg h1 hq, div_nonneg h2 hq, div_nonneg h3 hq⟩

/-- Witness of C10: the merge of the folds of the two halves of `sampleObs`. -/
theorem reachable_M2_nonneg_sample :
    Reachable (mergeStep (foldUpdates (sampleObs.take 2)) (foldUpdates (sampleObs.drop 2))) ∧
    0 ≤ (mergeStep (foldUpdates (sampleObs.take 2)) (foldUpdates (sampleObs.drop 2))).M2_spread :=
  have hr : Reachable
      (mergeStep (foldUpdates (sampleObs.take 2)) (foldUpdates (sampleObs.drop 2))) :=
    ReachableBy.merge _ _
      (foldUpdates_reachableBy _ (fun _ _ => trivial) ReachableBy.fresh)
      (foldUpdates_reachableBy _ (fun _ _ => trivial) ReachableBy.fresh)
  ⟨hr, (reachable_M2_nonneg _ hr).1⟩

/-! ## Frame of `update` and of the merge step -/

/-- C19: after a non-empty sequence of `update` calls on a fresh accumulator
the zone and pnode_id are the zone_name and node_id of the first call,
whatever the later calls carry; and the merge step leaves the zone and
pnode_id of a global aggregate with `n ≠ 0` unchanged. -/
theorem zone_and_pnode_id_sticky (o : Obs) (rest : List Obs) :
    (foldUpdates (o :: rest)).zone = o.zone_name ∧
    (foldUpdates (o :: rest)).pnode_id = o.node_id ∧
    (∀ g l : NodeAccumulator, g.n ≠ 0 →
      (mergeStep g l).zone = g.zone ∧ (mergeStep g l).pnode_id = g.pnode_id) := by
  have h := foldl_update_zone rest (({} : NodeAccumulator).updateObs o)
    (by simp [NodeAccumulator.updateObs, NodeAccumulator.update])
  refine ⟨?_, ?_, ?_⟩
  · rw [foldUpdates, List.foldl_cons, h.1]
    simp [NodeAccumulator.updateObs, NodeAccumulator.update]
  · rw [foldUpdates, List.foldl_cons, h.2]
    simp [NodeAccumulator.updateObs, NodeAccumulator.update]
  · intro g l hg
    simp [mergeStep, hg]

/-- C20: one call of `update` adds `spread` to `hourly_sum[hour]` and 1 to
`hourly_count[hour]` and leaves every other bucket as it was; when `hour` is
outside 0..23 no bucket has that index, so both arrays are unchanged; in
either case `n` grows by 1 and the means, the `M2`s, `sum_abs_spread`,
`positive_count`, `max_spread` and `min_spread` are updated. -/
theorem update_hourly_frame (a : NodeAccumulator) (spread cong_spread energy_spread : ℚ)
    (hour : Int) (zone_name : List Char) (node_id : Int) :
    let b := a.update spread cong_spread energy_spread hour zone_name node_id
    (∀ h : Fin 24, (h.val : Int) = hour →
      b.hourly_sum h = a.hourly_sum h + spread ∧ b.hourly_count h = a.hourly_count h + 1) ∧
    (∀ h : Fin 24, (h.val : Int) ≠ hour →
      b.hourly_sum h = a.hourly_sum h ∧ b.hourly_count h = a.hourly_count h) ∧
    (¬ (0 ≤ hour ∧ hour < 24) →
      b.hourly_sum = a.hourly_sum ∧ b.hourly_count = a.hourly_count) ∧
    b.n = a.n + 1 ∧
    b.mean_spread = a.mean_spread + (spread - a.mean_spread) / ((a.n + 1 : Int) : ℚ) ∧
    b.M2_spread = a.M2_spread + (spread - a.mean_spread) * (spread - b.mean_spread) ∧
    b.mean_cong_spread =
      a.mean_cong_spread + (cong_spread - a.mean_cong_spread) / ((a.n + 1 : Int) : ℚ) ∧
    b.M2_cong_spread =
      a.M2_cong_spread + (cong_spread - a.mean_cong_spread) * (cong_spread - b.mean_cong_spread) ∧
    b.mean_energy_spread =
      a.mean_energy_spread + (energy_spread - a.mean_energy_spread) / ((a.n + 1 : Int) : ℚ) ∧
    b.M2_energy_spread = a.M2_energy_spread +
      (energy_spread - a.mean_energy_spread) * (energy_spread - b.mean_energy_spread) ∧
    b.sum_abs_spread = a.sum_abs_spread + |spread| ∧
    b.positive_count = (if spread > 0 then a.positive_count + 1 else a.positive_count) ∧
    b.max_spread = max a.max_spread spread ∧
    b.min_spread = min a.min_spread spread := by
  intro b
  refine ⟨?_, ?_, ?_, rfl, rfl, rfl, rfl, rfl, rfl, rfl, rfl, rfl, rfl, rfl⟩
  · intro h e
    simp only [b, NodeAccumulator.update, bumpHour_apply, e, if_true]
    exact ⟨trivial, trivial⟩
  · intro h e
    simp only [b, NodeAccumulator.update, bumpHour_apply, e, if_false]
    exact ⟨trivial, trivial⟩
  · intro hr
    simp only [b, NodeAccumulator.update, bumpHour, dif_neg hr]
    exact ⟨trivial, trivial⟩

/-! ## Text and integer fields -/

/-- C17 as stated fails for the empty text: with the cursor at the start of
the empty first field of `emptyThenText`, `parse_string` steps over the comma
and writes the next field, `ABC`. -/
theorem parse_string_empty_field_copies_next :
    FieldAt (c_str emptyThenText) 4 0 [] ∧
    (parse_string (c_str emptyThenText) 4 { pos := 0, reads := [] } 32).2 = ['A', 'B', 'C'] := by
  refine ⟨⟨?_, ?_, ?_⟩, by decide⟩
  · intro i hi; simp at hi
  · intro c hc; simp at hc
  · right; decide

/-- C17 amended: for every field text `s` without a comma that is not empty,
or is empty at the end of the line, `parse_string` called with `max_len = 32`
at the start of `s` writes the first `min |s| 31` characters of `s` and then
the terminator: a text of at most 31 characters is copied whole, at most 32
bytes are written, and the cursor moves by the number of characters copied. -/
theorem parse_string_field (data : Nat → Char) (len : Nat) (p : FastCSVParser)
    (s : List Char) (hf : FieldAt data len p.pos s) (hs : s ≠ [] ∨ p.pos = len) :
    (parse_string data len p 32).2 = s.take 31 ∧
    (s.length ≤ 31 → (parse_string data len p 32).2 = s) ∧
    (parse_string data len p 32).2.length = min s.length 31 ∧
    (parse_string data len p 32).2.length + 1 ≤ 32 ∧
    (parse_string data len p 32).1.pos = p.pos + min s.length 31 := by
  have hstart : p.pos < len → data p.pos ≠ ',' := by
    intro hlt
    rcases hs with hs | hs
    · obtain ⟨c, t, rfl⟩ := List.exists_cons_of_ne_nil hs
      obtain ⟨hc, hne, _, _⟩ := fieldAt_cons hf
      rw [hc]; exact hne
    · omega
  have hp := commaLoop_pos_of_not_comma data len (len - p.pos) p hstart
  have h := copyLoop_field data len 32 s
    (len - (commaLoop data len (len - p.pos) p).pos) (commaLoop data len (len - p.pos) p) []
    (by rw [hp]; exact hf) (le_refl _)
  simp only [List.length_nil, Nat.sub_zero, List.nil_append, Nat.reduceSub] at h
  have e : (parse_string data len p 32).2 = s.take 31 := h.1
  refine ⟨e, ?_, ?_, ?_, h.2.trans (by rw [hp])⟩
  · intro hl
    rw [e, List.take_of_length_le hl]
  · rw [e, List.length_take, Nat.min_comm]
  · rw [e, List.length_take]
    omega

/-- Witness of C17 amended: the zone field of `zoneFieldLine`. -/
theorem parse_string_field_zone :
    FieldAt (c_str zoneFieldLine) 17 6 ['Z', 'O', 'N', 'E', '_', 'A'] ∧
    (parse_string (c_str zoneFieldLine) 17 { pos := 6, reads := [] } 32).2 =
      ['Z', 'O', 'N', 'E', '_', 'A'] := by
  have hf : FieldAt (c_str zoneFieldLine) 17 6 ['Z', 'O', 'N', 'E', '_', 'A'] := by
    refine ⟨?_, by decide, by decide⟩
    intro i hi
    simp only [List.length_cons, List.length_nil] at hi
    interval_cases i <;> decide
  exact ⟨hf, (parse_string_field (c_str zoneFieldLine) 17 { pos := 6, reads := [] } _ hf
    (Or.inl (by decide))).2.1 (by decide)⟩

/-- C18 as stated fails at an empty field inside the line: with the cursor at
the start of the empty middle field of `emptyBetweenInts`, `parse_int` steps
over the commas and returns 34, the value of the next field, not 0. -/
theorem parse_int_empty_field_reads_next :
    FieldAt (c_str emptyBetweenInts) 6 3 [] ∧
    (parse_int (c_str emptyBetweenInts) 6 { pos := 3, reads := [] }).2 = 34 ∧
    (parse_int (c_str emptyBetweenInts) 6 { pos := 3, reads := [] }).1.pos = 6 := by
  refine ⟨⟨?_, ?_, ?_⟩, by decide, by decide⟩
  · intro i hi; simp at hi
  · intro c hc; simp at hc
  · right; decide

/-- C18 amended: for a cursor at the start of a field `s` that is not empty,
or is empty at the end of the line, `parse_int` returns the decimal value of
the leading run of digits of the field (taken after the minus sign when the
field starts with one), negated when the field starts with a minus sign,
leaves the cursor just after the last digit consumed, and returns 0 when that
run is empty. -/
theorem parse_int_field (data : Nat → Char) (len : Nat) (p : FastCSVParser)
    (s : List Char) (hf : FieldAt data len p.pos s) (hs : s ≠ [] ∨ p.pos = len) :
    let run := (if data p.pos = '-' then s.tail else s).takeWhile isDigit
    (parse_int data len p).2 =
      (if data p.pos = '-' then -(decimalValue run) else decimalValue run) ∧
    (parse_int data len p).1.pos = p.pos + (if data p.pos = '-' then 1 else 0) + run.length ∧
    (run = [] → (parse_int data len p).2 = 0) := by
  intro run
  have hstart : p.pos < len → data p.pos ≠ ',' := by
    intro hlt
    rcases hs with hs | hs
    · obtain ⟨c, t, rfl⟩ := List.exists_cons_of_ne_nil hs
      obtain ⟨hc, hne, _, _⟩ := fieldAt_cons hf
      rw [hc]; exact hne
    · omega
  have hp := commaLoop_pos_of_not_comma data len (len - p.pos) p hstart
  have key : (parse_int data len p).2 =
      (if data p.pos = '-' then -(decimalValue run) else decimalValue run) ∧
      (parse_int data len p).1.pos =
        p.pos + (if data p.pos = '-' then 1 else 0) + run.length := by
    by_cases hneg : data p.pos = '-'
    · have hrun : run = s.tail.takeWhile isDigit := by simp [run, hneg]
      cases s with
      | nil =>
        have hlen : p.pos = len := by
          rcases hs with hs | hs
          · exact absurd rfl hs
          · exact hs
        have hfuel : len - (p.pos + 1) = 0 := by omega
        simp [parse_int, hp, hneg, FastCSVParser.deref, hfuel, digitLoop, hrun, decimalValue]
      | cons c t =>
        obtain ⟨_, _, _, ht⟩ := fieldAt_cons hf
        have h := digitLoop_field data len t (len - (p.pos + 1))
          { ((commaLoop data len (len - p.pos) p).deref p.pos) with pos := p.pos + 1 } 0
          ht (le_refl _)
        simp only [List.tail_cons] at hrun
        rw [horner_eq_decimalValue] at h
        simp [parse_int, hp, hneg, FastCSVParser.deref, hrun] at h ⊢
        exact ⟨h.1, by rw [h.2]⟩
    · have hrun : run = s.takeWhile isDigit := by simp [run, hneg]
      have h := digitLoop_field data len s (len - p.pos)
        ((commaLoop data len (len - p.pos) p).deref p.pos) 0
        (by simpa [FastCSVParser.deref, hp] using hf)
        (by simp [FastCSVParser.deref, hp])
      rw [horner_eq_decimalValue] at h
      simp [parse_int, hp, hneg, FastCSVParser.deref, hrun] at h ⊢
      exact ⟨h.1, h.2⟩
  refine ⟨key.1, key.2, ?_⟩
  intro hr
  rw [key.1, hr]
  simp [decimalValue]

/-- Witness of C18 amended: the first field of `negIntLine`. -/
theorem parse_int_field_negIntLine :
    FieldAt (c_str negIntLine) 8 0 ['-', '4', '2', 'a', 'b', 'c'] ∧
    (parse_int (c_str negIntLine) 8 { pos := 0, reads := [] }).2 = -42 ∧
    (parse_int (c_str negIntLine) 8 { pos := 0, reads := [] }).1.pos = 3 := by
  have hf : FieldAt (c_str negIntLine) 8 0 ['-', '4', '2', 'a', 'b', 'c'] := by
    refine ⟨?_, by decide, by decide⟩
    intro i hi
    simp only [List.length_cons, List.length_nil] at hi
    interval_cases i <;> decide
  have h := parse_int_field (c_str negIntLine) 8 { pos := 0, reads := [] } _ hf
    (Or.inl (by decide))
  refine ⟨hf, ?_, ?_⟩
  · rw [h.1]; decide
  · rw [h.2.1]; decide

/-! ## Derived metrics -/

/-- C11: for an aggregate built by folding one or more observations, when all
spreads are equal `M2_spread` is 0 and the loop body of `calculate_results`
derives `std_spread = 0` and `sharpe_ratio = 0`; likewise for the congestion
and the energy series.  No division that the loop body evaluates for the
aggregate has divisor 0: the log of divisors comes out of the derivation
itself, so the division `mean / std` is in it exactly when the test `std > 0`
succeeds.  With 500 or more observations and `|mean_spread|` above the
transaction cost, the derived result is in `results_`.  The routine `std::sqrt`
enters through `sqrt 0 = 0`. -/
theorem constant_series_sharpe_zero (sqrt : ℚ → ℚ) (hsqrt : sqrt 0 = 0) (tc : ℚ)
    (os : List Obs) (hne : os ≠ []) :
    ((∃ c, ∀ o ∈ os, o.spread = c) →
      (foldUpdates os).M2_spread = 0 ∧
      (deriveResult sqrt tc (foldUpdates os)).std_spread = 0 ∧
      (deriveResult sqrt tc (foldUpdates os)).sharpe_ratio = 0) ∧
    ((∃ c, ∀ o ∈ os, o.cong_spread = c) →
      (foldUpdates os).M2_cong_spread = 0 ∧
      (deriveResult sqrt tc (foldUpdates os)).congestion_std = 0 ∧
      (deriveResult sqrt tc (foldUpdates os)).congestion_sharpe = 0) ∧
    ((∃ c, ∀ o ∈ os, o.energy_spread = c) →
      (foldUpdates os).M2_energy_spread = 0 ∧
      (deriveResult sqrt tc (foldUpdates os)).energy_std = 0 ∧
      (deriveResult sqrt tc (foldUpdates os)).energy_sharpe = 0) ∧
    (∀ d ∈ deriveDivisors sqrt tc (foldUpdates os), d ≠ 0) ∧
    (∀ (entries : List (Int × NodeAccumulator)) (k : Int), (k, foldUpdates os) ∈ entries →
      500 ≤ os.length → tc < |(foldUpdates os).mean_spread| →
      deriveResult sqrt tc (foldUpdates os) ∈ calculate_results sqrt tc entries) := by
  obtain ⟨h1, h2, h3⟩ := accSummarises_foldUpdates os
  have e1 := (summarises_mean h1 (by simpa using hne)).2.2
  have e2 := (summarises_mean h2 (by simpa using hne)).2.2
  have e3 := (summarises_mean h3 (by simpa using hne)).2.2
  have hn : (foldUpdates os).n ≠ 0 := by
    have hlen : 0 < os.length := List.length_pos.mpr hne
    have := foldUpdates_n os
    omega
  refine ⟨?_, ?_, ?_, deriveDivisors_ne_zero sqrt tc _ hn, ?_⟩
  · rintro ⟨c, hc⟩
    have hM : (foldUpdates os).M2_spread = 0 := by
      rw [e1]
      exact sumSqDev_of_const _ c (by simpa using hc) (by simpa using hne)
    simp [deriveResult_eq, sqrtArgs, varianceLogged, divLogged, hM, hsqrt]
  · rintro ⟨c, hc⟩
    have hM : (foldUpdates os).M2_cong_spread = 0 := by
      rw [e2]
      exact sumSqDev_of_const _ c (by simpa using hc) (by simpa using hne)
    simp [deriveResult_eq, sqrtArgs, varianceLogged, divLogged, hM, hsqrt]
  · rintro ⟨c, hc⟩
    have hM : (foldUpdates os).M2_energy_spread = 0 := by
      rw [e3]
      exact sumSqDev_of_const _ c (by simpa using hc) (by simpa using hne)
    simp [deriveResult_eq, sqrtArgs, varianceLogged, divLogged, hM, hsqrt]
  · intro entries k hmem hlen hm
    refine (mem_calculate_results sqrt tc entries _).mpr ⟨(k, foldUpdates os), hmem, ?_, rfl⟩
    have h500 : 500 ≤ (foldUpdates os).n := by
      rw [foldUpdates_n]
      exact_mod_cast hlen
    simp only [passesFilters, Bool.and_eq_true, decide_eq_true_eq]
    exact ⟨h500, hm⟩

/-- Witness of C11: `constantObs`, 500 observations with spread 5, at cost
0.75.  The result is in `results_` with `std_spread = 0` and
`sharpe_ratio = 0`; the divisions evaluated are the five by `acc.n = 500`, the
two by the congestion and the energy deviation, which are 1, and the two of the
hours 1 and 2, and none by `std_spread`. -/
theorem constant_series_sharpe_zero_sample :
    sampleSqrt 0 = 0 ∧ constantObs ≠ [] ∧ (∀ o ∈ constantObs, o.spread = 5) ∧
    (foldUpdates constantObs).M2_spread = 0 ∧
    (deriveResult sampleSqrt (3 / 4) (foldUpdates constantObs)).std_spread = 0 ∧
    (deriveResult sampleSqrt (3 / 4) (foldUpdates constantObs)).sharpe_ratio = 0 ∧
    deriveDivisors sampleSqrt (3 / 4) (foldUpdates constantObs) =
      [500, 500, 500, 500, 1, 500, 1, 250, 250] ∧
    deriveResult sampleSqrt (3 / 4) (foldUpdates constantObs) ∈
      calculate_results sampleSqrt (3 / 4) [(7, foldUpdates constantObs)] :=
  have h0 : sampleSqrt 0 = 0 := by decide!
  have hne : constantObs ≠ [] := by decide!
  have hc : ∀ o ∈ constantObs, o.spread = 5 := by decide!
  have h := constant_series_sharpe_zero sampleSqrt h0 (3 / 4) constantObs hne
  ⟨h0, hne, hc, (h.1 ⟨5, hc⟩).1, (h.1 ⟨5, hc⟩).2.1, (h.1 ⟨5, hc⟩).2.2, by decide!,
    h.2.2.2.2 [(7, foldUpdates constantObs)] 7 (List.mem_singleton.mpr rfl) (by decide!)
      (by decide!)⟩

/-! ## The filters and the ranking of `calculate_results` -/

/-- C12: for a global map with distinct keys whose aggregates carry their key
as pnode_id, a location with `n ≥ 500` has a result in `results_` if and only if
`|mean_spread| > transaction_cost`; with transaction cost 0.75 a mean of
exactly 0.75 is excluded and a mean of 0.750001 is included. -/
theorem profitability_filter (sqrt : ℚ → ℚ) (tc : ℚ) (entries : List (Int × NodeAccumulator))
    (hkeys : (entries.map Prod.fst).Nodup) (hid : ∀ e ∈ entries, e.2.pnode_id = e.1)
    (k : Int) (acc : NodeAccumulator) (hmem : (k, acc) ∈ entries) (hn : 500 ≤ acc.n) :
    ((∃ r ∈ calculate_results sqrt tc entries, r.pnode_id = k) ↔ tc < |acc.mean_spread|) ∧
    (tc = 3 / 4 → acc.mean_spread = 3 / 4 →
      ¬ ∃ r ∈ calculate_results sqrt tc entries, r.pnode_id = k) ∧
    (tc = 3 / 4 → acc.mean_spread = 750001 / 1000000 →
      ∃ r ∈ calculate_results sqrt tc entries, r.pnode_id = k) := by
  have h := result_for_key_iff sqrt tc entries hkeys hid k acc hmem
  have hp : passesFilters tc acc = true ↔ tc < |acc.mean_spread| := by
    simp [passesFilters, hn]
  have hiff := h.trans hp
  refine ⟨hiff, ?_, ?_⟩
  · intro htc hm
    rw [hiff, htc, hm, abs_of_pos (by norm_num : (0 : ℚ) < 3 / 4)]
    norm_num
  · intro htc hm
    rw [hiff, htc, hm, abs_of_pos (by norm_num : (0 : ℚ) < 750001 / 1000000)]
    norm_num

/-- Witness of C12: locations 1 and 2 of `sampleEntries` at cost 0.75. -/
theorem profitability_filter_sample :
    (sampleEntries.map Prod.fst).Nodup ∧ (∀ e ∈ sampleEntries, e.2.pnode_id = e.1) ∧
    (¬ ∃ r ∈ calculate_results sampleSqrt (3 / 4) sampleEntries, r.pnode_id = 1) ∧
    (∃ r ∈ calculate_results sampleSqrt (3 / 4) sampleEntries, r.pnode_id = 2) := by
  have hkeys : (sampleEntries.map Prod.fst).Nodup := by decide
  have hid : ∀ e ∈ sampleEntries, e.2.pnode_id = e.1 := by
    intro e he
    simp only [sampleEntries, List.mem_cons, List.mem_singleton, List.not_mem_nil,
      or_false] at he
    rcases he with rfl | rfl | rfl | rfl <;> rfl
  have m1 : ((1 : Int), accAtCost) ∈ sampleEntries := List.mem_cons_self _ _
  have m2 : ((2 : Int), accAboveCost) ∈ sampleEntries :=
    List.mem_cons_of_mem _ (List.mem_cons_self _ _)
  exact ⟨hkeys, hid,
    (profitability_filter sampleSqrt (3 / 4) sampleEntries hkeys hid 1 accAtCost m1
      (by decide)).2.1 rfl rfl,
    (profitability_filter sampleSqrt (3 / 4) sampleEntries hkeys hid 2 accAboveCost m2
      (by decide)).2.2 rfl rfl⟩

/-- C13: for a global map with distinct keys whose aggregates carry their key
as pnode_id, a location with `n < 500` has no result in `results_`, and a
location with `n ≥ 500` and `|mean_spread| > transaction_cost` has one, with
`sample_size = n`; so 499 observations never appear and 500 observations that
clear the profitability filter do. -/
theorem sample_size_filter (sqrt : ℚ → ℚ) (tc : ℚ) (entries : List (Int × NodeAccumulator))
    (hkeys : (entries.map Prod.fst).Nodup) (hid : ∀ e ∈ entries, e.2.pnode_id = e.1)
    (k : Int) (acc : NodeAccumulator) (hmem : (k, acc) ∈ entries) :
    (acc.n < 500 → ¬ ∃ r ∈ calculate_results sqrt tc entries, r.pnode_id = k) ∧
    (500 ≤ acc.n → tc < |acc.mean_spread| →
      ∃ r ∈ calculate_results sqrt tc entries, r.pnode_id = k ∧ r.sample_size = acc.n) ∧
    (acc.n = 499 → ¬ ∃ r ∈ calculate_results sqrt tc entries, r.pnode_id = k) ∧
    (acc.n = 500 → tc < |acc.mean_spread| →
      ∃ r ∈ calculate_results sqrt tc entries, r.pnode_id = k ∧ r.sample_size = 500) := by
  have h := result_for_key_iff sqrt tc entries hkeys hid k acc hmem
  have hlow : acc.n < 500 → ¬ ∃ r ∈ calculate_results sqrt tc entries, r.pnode_id = k := by
    intro hlt
    rw [h]
    have : ¬ (500 ≤ acc.n) := by omega
    simp [passesFilters, this]
  have hhigh : 500 ≤ acc.n → tc < |acc.mean_spread| →
      ∃ r ∈ calculate_results sqrt tc entries, r.pnode_id = k ∧ r.sample_size = acc.n := by
    intro hn hm
    refine ⟨deriveResult sqrt tc acc, ?_, hid (k, acc) hmem, rfl⟩
    exact (mem_calculate_results sqrt tc entries _).mpr
      ⟨(k, acc), hmem, by simp [passesFilters, hn, hm], rfl⟩
  refine ⟨hlow, hhigh, ?_, ?_⟩
  · intro h499
    exact hlow (by omega)
  · intro h500 hm
    obtain ⟨r, hr, hk, hs⟩ := hhigh (by omega) hm
    exact ⟨r, hr, hk, by rw [hs, h500]⟩

/-- Witness of C13: location 3 of `sampleEntries`, with 499 records. -/
theorem sample_size_filter_sample :
    (sampleEntries.map Prod.fst).Nodup ∧ (∀ e ∈ sampleEntries, e.2.pnode_id = e.1) ∧
    accShort.n = 499 ∧
    (¬ ∃ r ∈ calculate_results sampleSqrt (3 / 4) sampleEntries, r.pnode_id = 3) := by
  have hkeys : (sampleEntries.map Prod.fst).Nodup := by decide
  have hid : ∀ e ∈ sampleEntries, e.2.pnode_id = e.1 := by
    intro e he
    simp only [sampleEntries, List.mem_cons, List.mem_singleton, List.not_mem_nil,
      or_false] at he
    rcases he with rfl | rfl | rfl | rfl <;> rfl
  have m3 : ((3 : Int), accShort) ∈ sampleEntries :=
    List.mem_cons_of_mem _ (List.mem_cons_of_mem _ (List.mem_cons_self _ _))
  exact ⟨hkeys, hid, rfl,
    (sample_size_filter sampleSqrt (3 / 4) sampleEntries hkeys hid 3 accShort m3).2.2.1 rfl⟩

/-- C14: after `calculate_results` the vector `results_` is a rearrangement of
the results derived from the entries that pass both filters, one for each such
entry and none for any other, and it is ordered by non-increasing
`sharpe_ratio`; when the keys are distinct and each aggregate carries its key
as pnode_id, the number of results for a location is 1 if its aggregate passes
both filters and 0 otherwise. -/
theorem calculate_results_exact (sqrt : ℚ → ℚ) (tc : ℚ) (entries : List (Int × NodeAccumulator)) :
    (calculate_results sqrt tc entries).Perm
      ((entries.filter (fun e => passesFilters tc e.2)).map
        (fun e => deriveResult sqrt tc e.2)) ∧
    (calculate_results sqrt tc entries).Sorted (fun a b => a.sharpe_ratio ≥ b.sharpe_ratio) ∧
    (∀ r ∈ calculate_results sqrt tc entries,
      ∃ e ∈ entries, 500 ≤ e.2.n ∧ tc < |e.2.mean_spread| ∧ r = deriveResult sqrt tc e.2) ∧
    ((entries.map Prod.fst).Nodup → (∀ e ∈ entries, e.2.pnode_id = e.1) →
      ∀ e ∈ entries,
        (calculate_results sqrt tc entries).countP (fun r => decide (r.pnode_id = e.1)) =
          if 500 ≤ e.2.n ∧ tc < |e.2.mean_spread| then 1 else 0) := by
  refine ⟨calculate_results_perm sqrt tc entries, sortDescBy_sorted _ _, ?_, ?_⟩
  · intro r hr
    obtain ⟨e, he, hp, rfl⟩ := (mem_calculate_results sqrt tc entries r).mp hr
    simp only [passesFilters, Bool.and_eq_true, decide_eq_true_eq] at hp
    exact ⟨e, he, hp.1, hp.2, rfl⟩
  · intro hkeys hid e he
    rw [countP_result_for_key sqrt tc entries hkeys hid e.1 e.2 he]
    simp [passesFilters]

/-- Witness of C14: `sampleEntries` at cost 0.75 gives the results of
locations 2 and 4, in this order. -/
theorem calculate_results_exact_sample :
    (calculate_results sampleSqrt (3 / 4) sampleEntries).map NodeResult.pnode_id = [2, 4] ∧
    (calculate_results sampleSqrt (3 / 4) sampleEntries).Sorted
      (fun a b => a.sharpe_ratio ≥ b.sharpe_ratio) :=
  ⟨by decide!, (calculate_results_exact sampleSqrt (3 / 4) sampleEntries).2.1⟩

/-! ## The best hour -/

/-- C15 as stated fails when an hour has observations but every observed hour
has average 0.  The fold of `zeroSeries`, 500 observations with spread 0 in
hour 5, has `n = 500`, so `calculate_results` processes it: `hourly_count[5]`
is 500, yet `best_hour` is 0 and `hourly_count[0]` is 0.  The fold of
`mixedSeries` has `n = 500` and mean spread 5, `hourly_count[5]` is 250 and
`hourly_count[0]` is 0, and at cost 0.75 its result is in `results_` with
`best_hour = 0`. -/
theorem best_hour_without_observation :
    (foldUpdates zeroSeries).n = 500 ∧
    (foldUpdates zeroSeries).hourly_count 5 = 500 ∧
    (foldUpdates zeroSeries).hourly_count 0 = 0 ∧
    (∀ (sqrt : ℚ → ℚ) (tc : ℚ),
      (deriveResult sqrt tc (foldUpdates zeroSeries)).best_hour = 0) ∧
    (foldUpdates mixedSeries).n = 500 ∧
    (foldUpdates mixedSeries).hourly_count 5 = 250 ∧
    (foldUpdates mixedSeries).hourly_count 0 = 0 ∧
    (∀ sqrt : ℚ → ℚ,
      ∃ r ∈ calculate_results sqrt (3 / 4) [(7, foldUpdates mixedSeries)],
        r.pnode_id = 7 ∧ r.sample_size = 500 ∧ r.best_hour = 0) := by
  have hz : bestHour (foldUpdates zeroSeries) = (0, 0) := by decide!
  have hm : bestHour (foldUpdates mixedSeries) = (0, 0) := by decide!
  have hn : (foldUpdates mixedSeries).n = 500 := by decide!
  have hp : passesFilters (3 / 4) (foldUpdates mixedSeries) = true := by decide!
  have hid : (foldUpdates mixedSeries).pnode_id = 7 := by decide!
  refine ⟨by decide!, by decide!, by decide!, ?_, hn, by decide!, by decide!, ?_⟩
  · intro sqrt tc
    rw [(deriveResult_best_hour sqrt tc _).1, hz]
  · intro sqrt
    refine ⟨_, mem_calculate_results_singleton sqrt (3 / 4) 7 _ hp, ?_, ?_, ?_⟩
    · rw [(deriveResult_id sqrt (3 / 4) _).1, hid]
    · rw [(deriveResult_id sqrt (3 / 4) _).2, hn]
    · rw [(deriveResult_best_hour sqrt (3 / 4) _).1, hm]

/-- C15 amended: for every aggregate processed by `calculate_results`, when
some hour with an observation has a non-zero average, `best_hour` is an hour
index in 0..23 with `hourly_count > 0` that maximizes
`|hourly_sum[h] / hourly_count[h]|` over the hours with an observation, and
`best_hour_avg` is that hour's average; when every hour with an observation has
average 0, or no hour has an observation, `best_hour = 0` and
`best_hour_avg = 0`. -/
theorem best_hour_spec (sqrt : ℚ → ℚ) (tc : ℚ) (acc : NodeAccumulator) :
    ((∃ h, acc.hourly_count h > 0 ∧ hourAvg acc h ≠ 0) →
      ∃ b : Fin 24, (deriveResult sqrt tc acc).best_hour = (b.val : Int) ∧
        acc.hourly_count b > 0 ∧
        (deriveResult sqrt tc acc).best_hour_avg = hourAvg acc b ∧
        ∀ h, acc.hourly_count h > 0 →
          |hourAvg acc h| ≤ |(deriveResult sqrt tc acc).best_hour_avg|) ∧
    ((∀ h, acc.hourly_count h > 0 → hourAvg acc h = 0) →
      (deriveResult sqrt tc acc).best_hour = 0 ∧
      (deriveResult sqrt tc acc).best_hour_avg = 0) := by
  rw [(deriveResult_best_hour sqrt tc acc).1, (deriveResult_best_hour sqrt tc acc).2]
  constructor
  · rintro ⟨h, hc, hne⟩
    rcases bestSoFar_bestHour acc with ⟨_, hz⟩ | ⟨_, ⟨b, _, hb1, hb2, hb3⟩, hmax⟩
    · exact absurd (hz h (List.mem_finRange h) hc) hne
    · exact ⟨b, hb1, hb2, hb3, fun x hx => hmax x (List.mem_finRange x) hx⟩
  · intro hz
    rcases bestSoFar_bestHour acc with ⟨e, _⟩ | ⟨hne, ⟨b, _, _, hb2, hb3⟩, _⟩
    · rw [e]; exact ⟨rfl, rfl⟩
    · exact absurd (hb3.trans (hz b hb2)) hne

/-- Witness of C15 amended: the fold of `fiveSeries`, 500 observations with
spread 5 in hour 1, which `calculate_results` processes; hour 1 is the best
hour, with average 5. -/
theorem best_hour_spec_sample :
    (foldUpdates fiveSeries).n = 500 ∧
    (foldUpdates fiveSeries).hourly_count 1 > 0 ∧
    hourAvg (foldUpdates fiveSeries) 1 ≠ 0 ∧
    (deriveResult sampleSqrt (3 / 4) (foldUpdates fiveSeries)).best_hour = 1 ∧
    (deriveResult sampleSqrt (3 / 4) (foldUpdates fiveSeries)).best_hour_avg = 5 ∧
    ∃ b : Fin 24,
      (deriveResult sampleSqrt (3 / 4) (foldUpdates fiveSeries)).best_hour = (b.val : Int) ∧
      (foldUpdates fiveSeries).hourly_count b > 0 :=
  have h1 : (foldUpdates fiveSeries).hourly_count 1 > 0 := by decide!
  have h2 : hourAvg (foldUpdates fiveSeries) 1 ≠ 0 := by decide!
  have h := (best_hour_spec sampleSqrt (3 / 4) (foldUpdates fiveSeries)).1 ⟨1, h1, h2⟩
  ⟨by decide!, h1, h2, by decide!, by decide!, h.elim fun b hb => ⟨b, hb.1, hb.2.1⟩⟩

/-! ## Zone summaries -/

/-- C16: after `calculate_zone_summaries` the vector `zone_summaries_` holds
exactly one summary per distinct zone of `results_`; in each,
`num_profitable_nodes` is the number of results of that zone, `total_samples`
the sum of their `sample_size` and `avg_sharpe` the arithmetic mean of their
`sharpe_ratio`; the `num_profitable_nodes` of all zones sum to the size of
`results_`; and the vector is ordered by non-increasing `avg_sharpe`. -/
theorem calculate_zone_summaries_spec (results : List NodeResult) :
    ((calculate_zone_summaries results).map ZoneSummary.zone).Nodup ∧
    (∀ z, z ∈ (calculate_zone_summaries results).map ZoneSummary.zone ↔
      ∃ r ∈ results, r.zone = z) ∧
    (∀ s ∈ calculate_zone_summaries results,
      s.num_profitable_nodes =
        ((results.filter (fun r => decide (r.zone = s.zone))).length : Int) ∧
      s.total_samples =
        ((results.filter (fun r => decide (r.zone = s.zone))).map NodeResult.sample_size).sum ∧
      s.avg_sharpe =
        ((results.filter (fun r => decide (r.zone = s.zone))).map NodeResult.sharpe_ratio).sum /
          ((results.filter (fun r => decide (r.zone = s.zone))).length : ℚ)) ∧
    ((calculate_zone_summaries results).map ZoneSummary.num_profitable_nodes).sum =
      (results.length : Int) ∧
    (calculate_zone_summaries results).Sorted (fun a b => a.avg_sharpe ≥ b.avg_sharpe) := by
  have hperm : (calculate_zone_summaries results).Perm
      ((results.foldl zoneStep
          { zone_sharpes := [], zone_counts := [], zone_samples := [] }).zone_sharpes.map
        (zoneSummaryOf (results.foldl zoneStep
          { zone_sharpes := [], zone_counts := [], zone_samples := [] }))) := by
    unfold calculate_zone_summaries sortDescBy
    exact List.perm_insertionSort _ _
  have hkeys : ((results.foldl zoneStep
          { zone_sharpes := [], zone_counts := [], zone_samples := [] }).zone_sharpes.map
        (zoneSummaryOf (results.foldl zoneStep
          { zone_sharpes := [], zone_counts := [], zone_samples := [] }))).map
        ZoneSummary.zone =
      (results.foldl (fun ms r => mapModify r.zone [] (fun v => v ++ [r.sharpe_ratio]) ms)
        []).map Prod.fst := by
    rw [List.map_map, foldl_zoneStep_sharpes]
    rfl
  have hnd := foldl_mapModify_keys_nodup NodeResult.zone ([] : List ℚ)
    (fun r v => v ++ [r.sharpe_ratio]) results [] (by simp)
  have hmem := foldl_mapModify_keys_mem NodeResult.zone ([] : List ℚ)
    (fun r v => v ++ [r.sharpe_ratio]) results []
  have hzperm := hperm.map ZoneSummary.zone
  rw [hkeys] at hzperm
  refine ⟨hzperm.nodup_iff.mpr hnd, ?_, ?_, ?_, sortDescBy_sorted _ _⟩
  · intro z
    rw [hzperm.mem_iff, hmem]
    simp
  · intro s hs
    obtain ⟨e, he, rfl⟩ := List.mem_map.mp (hperm.mem_iff.mp hs)
    have := zoneSummaryOf_spec results e he
    simp only at this
    obtain ⟨hz, h1, h2, h3⟩ := this
    rw [hz]
    exact ⟨h1, h2, h3⟩
  · rw [(hperm.map ZoneSummary.num_profitable_nodes).sum_eq, List.map_map]
    have hcongr : ∀ e ∈ (results.foldl zoneStep
        { zone_sharpes := [], zone_counts := [], zone_samples := [] }).zone_sharpes,
        (ZoneSummary.num_profitable_nodes ∘ zoneSummaryOf (results.foldl zoneStep
          { zone_sharpes := [], zone_counts := [], zone_samples := [] })) e =
        ((fun z => (((results.filter (fun r => decide (r.zone = z))).length : Nat) : Int)) ∘
          Prod.fst) e := by
      intro e he
      exact (zoneSummaryOf_spec results e he).2.1
    rw [List.map_congr_left hcongr, ← List.map_map, foldl_zoneStep_sharpes]
    apply sum_filter_length_of_nodup NodeResult.zone _ hnd
    intro r hr
    exact (hmem r.zone).mpr (Or.inr ⟨r, hr, rfl⟩)

/-- Sample run of C16: `sampleResults` has zones A (two results), B and C. -/
theorem calculate_zone_summaries_sample :
    calculate_zone_summaries sampleResults =
      [ { zone := ['B'], avg_sharpe := 4, num_profitable_nodes := 1, total_samples := 600 },
        { zone := ['A'], avg_sharpe := 3 / 2, num_profitable_nodes := 2, total_samples := 1200 },
        { zone := ['C'], avg_sharpe := -1, num_profitable_nodes := 1, total_samples := 800 } ] ∧
    ((calculate_zone_summaries sampleResults).map ZoneSummary.num_profitable_nodes).sum = 4 :=
  ⟨by decide!, (calculate_zone_summaries_spec sampleResults).2.2.2.1⟩

/-! ## Extrema and sums -/

/-- C21: for a non-empty list of observations folded with `update` into a
fresh accumulator, `max_spread` is the largest spread of the list when every
spread is at least -1e9, and `min_spread` the smallest when every spread is at
most 1e9; when all spreads are below -1e9 `max_spread` stays at -1e9, which
is no spread of the list, and likewise `min_spread` stays at 1e9 when all are
above 1e9; `sum_abs_spread` is the sum of the `|spread|` and `positive_count`
the number of spreads `> 0`. -/
theorem extrema_and_sums (os : List Obs) (hne : os ≠ []) :
    ((∀ o ∈ os, (-1000000000 : ℚ) ≤ o.spread) →
      (∃ o ∈ os, (foldUpdates os).max_spread = o.spread) ∧
      ∀ o ∈ os, o.spread ≤ (foldUpdates os).max_spread) ∧
    ((∀ o ∈ os, o.spread ≤ (1000000000 : ℚ)) →
      (∃ o ∈ os, (foldUpdates os).min_spread = o.spread) ∧
      ∀ o ∈ os, (foldUpdates os).min_spread ≤ o.spread) ∧
    ((∀ o ∈ os, o.spread < (-1000000000 : ℚ)) →
      (foldUpdates os).max_spread = -1000000000 ∧
      ∀ o ∈ os, o.spread ≠ (foldUpdates os).max_spread) ∧
    ((∀ o ∈ os, (1000000000 : ℚ) < o.spread) →
      (foldUpdates os).min_spread = 1000000000 ∧
      ∀ o ∈ os, o.spread ≠ (foldUpdates os).min_spread) ∧
    (foldUpdates os).sum_abs_spread = (os.map (fun o => |o.spread|)).sum ∧
    (foldUpdates os).positive_count =
      ((os.countP (fun o => decide (o.spread > 0)) : Nat) : Int) := by
  obtain ⟨h1, h2, h3, h4, h5, h6⟩ := foldl_update_extrema os {}
  obtain ⟨s1, s2⟩ := foldl_update_sums os {}
  have hmax0 : ({} : NodeAccumulator).max_spread = -1000000000 := rfl
  have hmin0 : ({} : NodeAccumulator).min_spread = 1000000000 := rfl
  rw [hmax0] at h1 h3
  rw [hmin0] at h4 h6
  obtain ⟨x, xs, rfl⟩ := List.exists_cons_of_ne_nil hne
  change _ ≤ (foldUpdates (x :: xs)).max_spread at h1
  change ∀ o ∈ x :: xs, o.spread ≤ (foldUpdates (x :: xs)).max_spread at h2
  change (foldUpdates (x :: xs)).max_spread = _ ∨
    ∃ o ∈ x :: xs, (foldUpdates (x :: xs)).max_spread = o.spread at h3
  change (foldUpdates (x :: xs)).min_spread ≤ _ at h4
  change ∀ o ∈ x :: xs, (foldUpdates (x :: xs)).min_spread ≤ o.spread at h5
  change (foldUpdates (x :: xs)).min_spread = _ ∨
    ∃ o ∈ x :: xs, (foldUpdates (x :: xs)).min_spread = o.spread at h6
  refine ⟨?_, ?_, ?_, ?_, ?_, ?_⟩
  · intro hall
    refine ⟨?_, h2⟩
    rcases h3 with h3 | h3
    · refine ⟨x, List.mem_cons_self _ _, ?_⟩
      have hx1 := hall x (List.mem_cons_self _ _)
      have hx2 := h2 x (List.mem_cons_self _ _)
      rw [h3] at hx2 ⊢
      exact le_antisymm hx1 hx2
    · exact h3
  · intro hall
    refine ⟨?_, h5⟩
    rcases h6 with h6 | h6
    · refine ⟨x, List.mem_cons_self _ _, ?_⟩
      have hx1 := hall x (List.mem_cons_self _ _)
      have hx2 := h5 x (List.mem_cons_self _ _)
      rw [h6] at hx2 ⊢
      exact le_antisymm hx2 hx1
    · exact h6
  · intro hall
    have hlt : ∀ o ∈ x :: xs, o.spread < (foldUpdates (x :: xs)).max_spread :=
      fun o ho => lt_of_lt_of_le (hall o ho) h1
    refine ⟨?_, fun o ho => ne_of_lt (hlt o ho)⟩
    rcases h3 with h3 | ⟨o, ho, h3⟩
    · exact h3
    · exact absurd h3.symm (ne_of_lt (hlt o ho))
  · intro hall
    have hlt : ∀ o ∈ x :: xs, (foldUpdates (x :: xs)).min_spread < o.spread :=
      fun o ho => lt_of_le_of_lt h4 (hall o ho)
    refine ⟨?_, fun o ho => ne_of_gt (hlt o ho)⟩
    rcases h6 with h6 | ⟨o, ho, h6⟩
    · exact h6
    · exact absurd h6 (ne_of_lt (hlt o ho))
  · have : ({} : NodeAccumulator).sum_abs_spread = 0 := rfl
    rw [this, zero_add] at s1
    exact s1
  · have : ({} : NodeAccumulator).positive_count = 0 := rfl
    rw [this, zero_add] at s2
    exact s2

/-- Witness of C21: the fold of `sampleObs`, with spreads 1 to 5. -/
theorem extrema_and_sums_sample :
    sampleObs ≠ [] ∧ (∀ o ∈ sampleObs, (-1000000000 : ℚ) ≤ o.spread) ∧
    (∃ o ∈ sampleObs, (foldUpdates sampleObs).max_spread = o.spread) ∧
    (foldUpdates sampleObs).max_spread = 5 ∧
    (foldUpdates sampleObs).sum_abs_spread = 15 ∧
    (foldUpdates sampleObs).positive_count = 5 :=
  have h := extrema_and_sums sampleObs (by decide)
  ⟨by decide, by decide, (h.1 (by decide)).1, by decide!, by decide!, by decide!⟩

/-! ## Invariants of the maps and of the retained results -/

/-- C22: when the aggregates of the global map are reachable by `update` and
merge steps, every result that `calculate_results` places in `results_` has
`sample_size ≥ 500`, `hit_rate` in [0, 1], and `net_profit_10mw` equal to
`(|mean_spread| - transaction_cost) * 10 * sample_size`, which is strictly
positive. -/
theorem retained_result_bounds (sqrt : ℚ → ℚ) (tc : ℚ) (entries : List (Int × NodeAccumulator))
    (hreach : ∀ e ∈ entries, Reachable e.2) (r : NodeResult)
    (hr : r ∈ calculate_results sqrt tc entries) :
    500 ≤ r.sample_size ∧ 0 ≤ r.hit_rate ∧ r.hit_rate ≤ 1 ∧
    r.net_profit_10mw = (|r.mean_spread| - tc) * 10 * (r.sample_size : ℚ) ∧
    0 < r.net_profit_10mw := by
  obtain ⟨e, he, hp, rfl⟩ := (mem_calculate_results sqrt tc entries r).mp hr
  simp only [passesFilters, Bool.and_eq_true, decide_eq_true_eq] at hp
  obtain ⟨hn, hm⟩ := hp
  obtain ⟨p0, p1⟩ := reachableBy_positive_count (hreach e he)
  have hnq : (0 : ℚ) < (e.2.n : ℚ) := by
    have : (0 : Int) < e.2.n := by omega
    exact_mod_cast this
  have hp0 : (0 : ℚ) ≤ (e.2.positive_count : ℚ) := by exact_mod_cast p0
  have hp1 : (e.2.positive_count : ℚ) ≤ (e.2.n : ℚ) := by exact_mod_cast p1
  have hd : 0 < |e.2.mean_spread| - tc := by linarith
  have hnet : (deriveResult sqrt tc e.2).net_profit_10mw =
      (|e.2.mean_spread| - tc) * 10 * (e.2.n : ℚ) := by
    rw [deriveResult_eq]
    simp only
    rw [max_eq_right (le_of_lt hd)]
  refine ⟨hn, ?_, ?_, hnet, ?_⟩
  · exact div_nonneg hp0 (le_of_lt hnq)
  · exact (div_le_one hnq).mpr hp1
  · rw [hnet]
    positivity

/-- Witness of C22: the one location of `longEntries`, 500 observations with
spread 5, at cost 0.75. -/
theorem retained_result_bounds_sample :
    (∀ e ∈ longEntries, Reachable e.2) ∧
    ∃ r ∈ calculate_results sampleSqrt (3 / 4) longEntries,
      500 ≤ r.sample_size ∧ 0 ≤ r.hit_rate ∧ r.hit_rate ≤ 1 ∧ 0 < r.net_profit_10mw := by
  have hreach : ∀ e ∈ longEntries, Reachable e.2 := by
    intro e he
    rw [longEntries, List.mem_singleton] at he
    rw [he]
    show Reachable longAcc
    unfold longAcc
    exact foldUpdates_reachable (List.replicate 500 fiveObs)
  obtain ⟨hn, hmean⟩ := foldUpdates_replicate fiveObs 500 (by norm_num)
  have hmem : deriveResult sampleSqrt (3 / 4) longAcc ∈
      calculate_results sampleSqrt (3 / 4) longEntries := by
    refine (mem_calculate_results _ _ _ _).mpr
      ⟨(7, longAcc), List.mem_singleton.mpr rfl, ?_, rfl⟩
    have h1 : longAcc.n = 500 := by
      unfold longAcc
      rw [hn]
      norm_num
    have h2 : longAcc.mean_spread = 5 := by
      unfold longAcc
      rw [hmean]
      rfl
    rw [passesFilters, h1, h2, abs_of_pos (by norm_num : (0 : ℚ) < 5)]
    norm_num
  have h := retained_result_bounds sampleSqrt (3 / 4) longEntries hreach _ hmem
  exact ⟨hreach, _, hmem, h.1, h.2.1, h.2.2.1, h.2.2.2.2⟩

/-- C23: after the merge phase every aggregate of the global map has `n ≥ 1`
and carries its key as pnode_id, so the result derived from it reports that
key; the same holds for the local map of a worker after its loop over any
chunk of lines. -/
theorem analyze_maps_keyed (lines : List (List Char)) (T : Nat) (order : List Nat) (k : Int)
    (a : NodeAccumulator) :
    (analyzeMerge lines T order k = some a →
      1 ≤ a.n ∧ a.pnode_id = k ∧
      ∀ (sqrt : ℚ → ℚ) (tc : ℚ), (deriveResult sqrt tc a).pnode_id = k) ∧
    (∀ chunk : List (List Char), workerFold chunk k = some a → 1 ≤ a.n ∧ a.pnode_id = k) := by
  constructor
  · intro h
    obtain ⟨_, hn, hid⟩ := mapKeyed_analyzeMerge lines T order k a h
    exact ⟨hn, hid, fun _ _ => hid⟩
  · intro chunk h
    obtain ⟨_, hn, hid⟩ := mapKeyed_workerFold chunk k a h
    exact ⟨hn, hid⟩

/-- Witness of C23: location 18 of the global map of `sampleLines`, three
workers merging in the order 2, 0, 1. -/
theorem analyze_maps_keyed_sample :
    ∃ a, analyzeMerge sampleLines 3 [2, 0, 1] 18 = some a ∧ 1 ≤ a.n ∧ a.pnode_id = 18 := by
  have hs : (analyzeMerge sampleLines 3 [2, 0, 1] 18).isSome = true := by decide!
  cases h : analyzeMerge sampleLines 3 [2, 0, 1] 18 with
  | none => rw [h] at hs; exact absurd hs (by decide)
  | some a =>
    have := (analyze_maps_keyed sampleLines 3 [2, 0, 1] 18 a).1 h
    exact ⟨a, rfl, this.1, this.2.1⟩

/-! ## The zone longer than its buffer -/

/-- C24: when the zone text `s` on which `parse_string` starts in
`CSVRowParser::parse` has more than 31 characters, the zone output is the
first 31 characters, the cursor is left 31 characters into the field, and
the spread output is what `strtod` reads there, at the 32nd character of the
zone, not in the next column; when the text there does not start a number the
spread output is 0; and `parse` returns true. -/
theorem parse_truncated_zone (data : Nat → Char) (len : Nat) (s : List Char)
    (hf : FieldAt data len (zoneStart data len) s) (hlong : 31 < s.length) :
    (parse data len).zone = s.take 31 ∧
    (parse_string data len (cursorBeforeZone data len) 32).1.pos = zoneStart data len + 31 ∧
    zoneStart data len + 31 < zoneStart data len + s.length ∧
    (parse data len).spread =
      (strtod data (len + 1 - (zoneStart data len + 31)) (zoneStart data len + 31)).1 ∧
    (startsWithNumber data (len + 1 - (zoneStart data len + 31)) (zoneStart data len + 31) =
        false → (parse data len).spread = 0) ∧
    (parse data len).ok = true := by
  have hcopy := copyLoop_field data len 32 s
    (len - (commaLoop data len (len - (cursorBeforeZone data len).pos)
      (cursorBeforeZone data len)).pos)
    (commaLoop data len (len - (cursorBeforeZone data len).pos) (cursorBeforeZone data len)) []
    hf (le_refl _)
  simp only [List.length_nil, Nat.sub_zero, List.nil_append, Nat.reduceSub] at hcopy
  have hmin : min s.length 31 = 31 := by omega
  rw [hmin] at hcopy
  have hzone : (parse_string data len (cursorBeforeZone data len) 32).2 = s.take 31 := hcopy.1
  have hpos : (parse_string data len (cursorBeforeZone data len) 32).1.pos =
      zoneStart data len + 31 := hcopy.2
  obtain ⟨hne, hlt⟩ := fieldAt_getD_ne_comma hf 31 hlong
  have hcomma := commaLoop_pos_of_not_comma data len
    (len - (parse_string data len (cursorBeforeZone data len) 32).1.pos)
    (parse_string data len (cursorBeforeZone data len) 32).1
    (by rw [hpos]; exact fun _ => hne)
  have hspread : (parse data len).spread =
      (strtod data (len + 1 - (zoneStart data len + 31)) (zoneStart data len + 31)).1 := by
    have e : (parse data len).spread =
        (parse_double data len (parse_string data len (cursorBeforeZone data len) 32).1).2 := rfl
    rw [e]
    simp only [parse_double]
    rw [hcomma, hpos]
  refine ⟨hzone, hpos, by omega, hspread, ?_, rfl⟩
  intro hnum
  rw [hspread, strtod_of_not_number data _ _ hnum]

/-- Witness of C24: on `longZoneLine` the zone text has 36 characters and the
spread column holds 1.23, yet the spread output is 0. -/
theorem parse_truncated_zone_sample :
    FieldAt (c_str longZoneLine) 134 (zoneStart (c_str longZoneLine) 134)
      "ABCDEFGHIJKLMNOPQRSTUVWXYZABCDEFGHIJ".toList ∧
    (parse (c_str longZoneLine) 134).zone = "ABCDEFGHIJKLMNOPQRSTUVWXYZABCDE".toList ∧
    (parse (c_str longZoneLine) 134).spread = 0 ∧
    longZoneLine.drop 130 = "1.23".toList := by
  have hz : zoneStart (c_str longZoneLine) 134 = 93 := by decide!
  have hf : FieldAt (c_str longZoneLine) 134 (zoneStart (c_str longZoneLine) 134)
      "ABCDEFGHIJKLMNOPQRSTUVWXYZABCDEFGHIJ".toList := by
    rw [hz]
    refine ⟨?_, by decide, by decide!⟩
    intro i hi
    have hi2 : i < 36 := hi
    interval_cases i <;> decide!
  have h := parse_truncated_zone (c_str longZoneLine) 134 _ hf (by decide)
  refine ⟨hf, ?_, h.2.2.2.2.1 ?_, by decide!⟩
  · rw [h.1]; decide
  · rw [hz]; decide!

end LMP
